import Mathlib

/-!
# Verification of the fal.ai image-generation pipe's prompt-tag engine

Shallow embedding of `parse_prompt_tags`, `_convert_tag_value` and
`_convert_aspect_ratio` from `src/functions/pipes/fal-ai-image-generation-pipe.py`,
together with proofs and refutations of the specification's claims about them.

Modelling conventions:
* Python strings are modelled as `List Char`; the character classes `\w`, `\s`,
  `\d` of the `re` module are modelled on their ASCII fragments.
* Python `float` (IEEE binary64) is modelled exactly: finite values are the
  rationals representable with a 53-bit significand, operations are defined by
  correct rounding (round to nearest, ties to even) of the exact rational
  result, with overflow to infinity and `OverflowError` / `ZeroDivisionError`
  where CPython raises them.
* Fallible Python code returns `Except PyErr`.
-/

namespace FalPipe

/-! ## Character classes (ASCII fragments of `re`'s `\s`, `\w`, `\d`) -/

/-- Python `\s` (ASCII part): space, tab, newline, carriage return,
vertical tab, form feed. -/
def isWs (c : Char) : Bool :=
  c = ' ' || c = '\t' || c = '\n' || c = '\r' || c = '\x0b' || c = '\x0c'

/-- Python `\w` (ASCII part): letters, digits, underscore. -/
def isWordChar (c : Char) : Bool :=
  c.isAlphanum || c = '_'

/-- A character that can begin a tag marker (`-` begins `--`, `—` is a marker). -/
def isMarkerChar (c : Char) : Bool :=
  c = '-' || c = '—'

/-! ## Whitespace normalisation: `re.sub(r"\s+", " ", s).strip()` -/

/-- Replace every maximal whitespace run by a single space.
The flag records whether we are inside a run already emitted as a space. -/
def collapseAux : Bool → List Char → List Char
  | _, [] => []
  | inRun, c :: r =>
    if isWs c then
      if inRun then collapseAux true r else ' ' :: collapseAux true r
    else
      c :: collapseAux false r

def collapseWs (l : List Char) : List Char := collapseAux false l

/-- Python `str.strip()` on a char list. -/
def stripChars (l : List Char) : List Char :=
  ((l.dropWhile isWs).reverse.dropWhile isWs).reverse

/-- `re.sub(r"\s+", " ", s).strip()` — the post-removal cleanup of the prompt. -/
def normalizeWs (l : List Char) : List Char := stripChars (collapseWs l)

/-- Characterisation of whitespace-collapsed text: every whitespace character
is a plain space and no two adjacent characters are both whitespace. -/
def WsCanonical (l : List Char) : Prop :=
  (∀ c ∈ l, isWs c = true → c = ' ') ∧
  l.Chain' (fun a b => ¬ (isWs a = true ∧ isWs b = true))

/-! ## The tag tokenizer

The pipe's regex is
`(?:--|—)(\w+)(?:\s+([^\s\-—][^\-—]*?))?(?=\s+(?:--|—)|$)`,
scanned with `re.finditer` / removed with `re.sub`.  We model matching on
suffixes of the prompt. -/

/-- Length of the marker `(?:--|—)` at the head of a suffix, if present
(`--` before `—`; their first characters are distinct so order is immaterial). -/
def markerLen : List Char → Option Nat
  | [] => none
  | c1 :: rest =>
    if c1 = '—' then some 1
    else if c1 = '-' then
      match rest with
      | c2 :: _ => if c2 = '-' then some 2 else none
      | [] => none
    else none

/-- Python's `$` (no MULTILINE): end of string, or just before a final newline. -/
def atDollar : List Char → Bool
  | [] => true
  | c :: r => c = '\n' && r.isEmpty

/-- The lookahead `(?=\s+(?:--|—)|$)` at a suffix.  `\s+` must be a nonempty
whitespace run; since marker characters are not whitespace the marker can only
start right after the maximal run. -/
def lookahead (s : List Char) : Bool :=
  atDollar s ||
    (let w := s.takeWhile isWs
     decide (0 < w.length) && (markerLen (s.drop w.length)).isSome)

/-- The lazy tail `[^\-—]*?` of the value followed by the lookahead: returns
the shortest extension (list of consumed characters) after which the lookahead
holds, together with the remaining suffix. -/
def valExt : List Char → Option (List Char × List Char)
  | [] => if lookahead [] then some ([], []) else none
  | c :: r =>
    if lookahead (c :: r) then some ([], c :: r)
    else if isMarkerChar c then none
    else (valExt r).map (fun p => (c :: p.1, p.2))

/-- Attempt the optional value group `(?:\s+([^\s\-—][^\-—]*?))?` followed by
the lookahead, at suffix `p` (just after the tag name).  Returns the captured
value (if the group participated) and the suffix at the match's end. -/
def tryValue (p : List Char) : Option (Option (List Char) × List Char) :=
  let w := p.takeWhile isWs
  let afterWs := p.drop w.length
  let withVal : Option (Option (List Char) × List Char) :=
    if 0 < w.length then
      match afterWs with
      | [] => none
      | c :: r =>
        if !isWs c && !isMarkerChar c then
          (valExt r).map (fun q => (some (c :: q.1), q.2))
        else none
    else none
  match withVal with
  | some res => some res
  | none => if lookahead p then some (none, p) else none

/-- Greedy backtracking over `(\w+)`: `nameRev` holds the word characters
tried as the tag name (reversed); on failure the last one is returned to the
input.  Returns `(tagName, value?, suffix after the match)`. -/
def tryTagName : List Char → List Char → Option (List Char × Option (List Char) × List Char)
  | [], _ => none
  | c :: nr, p =>
    match tryValue p with
    | some (v, rest) => some ((c :: nr).reverse, v, rest)
    | none => tryTagName nr (c :: p)

/-- Attempt the whole pattern at the head of suffix `s`. -/
def tryMatchAt (s : List Char) : Option (List Char × Option (List Char) × List Char) :=
  match markerLen s with
  | none => none
  | some ml =>
    let rest := s.drop ml
    let w := rest.takeWhile isWordChar
    tryTagName w.reverse (rest.drop w.length)

/-- A raw tokenizer match: tag name and optional raw value. -/
structure RawMatch where
  tag : List Char
  val : Option (List Char)
deriving DecidableEq, Repr

/-- One pass of `re.finditer` and `re.sub` together: scan left to right,
at each position attempt a match; on success emit the token and continue
after it, otherwise keep the character.  Returns the token list in order and
the prompt with all matched spans deleted.  `fuel ≥ s.length` suffices. -/
def scanRem : Nat → List Char → List RawMatch × List Char
  | 0, s => ([], s)
  | _ + 1, [] => ([], [])
  | fuel + 1, c :: rest =>
    match tryMatchAt (c :: rest) with
    | some (name, v, after) =>
      let p := scanRem fuel after
      (⟨name, v⟩ :: p.1, p.2)
    | none =>
      let p := scanRem fuel rest
      (p.1, c :: p.2)

/-- `re.finditer(tag_pattern, prompt)` together with `re.sub(tag_pattern, "", prompt)`. -/
def tokenize (l : List Char) : List RawMatch × List Char :=
  scanRem l.length l

/-! ## Python exceptions and values -/

inductive PyErr where
  | valueError (msg : String)
  | overflowError (msg : String)
  | zeroDivisionError (msg : String)
deriving DecidableEq, Repr

/-- A Python `float`: an exactly represented binary64 value. -/
inductive PyFloat where
  | finite (q : ℚ)
  | inf
  | ninf
  | nan
deriving DecidableEq, Repr

/-- The values that can appear in the overrides dictionary. -/
inductive PyVal where
  | pyBool (b : Bool)
  | pyInt (n : ℤ)
  | pyFloatV (f : PyFloat)
  | pyStr (s : String)
  | pySize (w h : ℤ)
  | pyWarnList (ws : List String)
deriving DecidableEq, Repr

/-- Python `str.strip()`. -/
def pyStrip (s : String) : String := String.mk (stripChars s.data)

/-- Python `str.lower()` (ASCII). -/
def pyLower (s : String) : String := String.mk (s.data.map Char.toLower)

/-! ## `int(str)` — base-10 integer literals with optional sign and
single underscores between digits -/

/-- Continuation of a digit group after its first digit:
digits, possibly separated by single underscores. -/
def intTail : List Char → Bool
  | [] => true
  | '_' :: d :: r => d.isDigit && intTail r
  | ['_'] => false
  | c :: r => c.isDigit && intTail r

def digitsToNat (l : List Char) : ℕ :=
  l.foldl (fun a c => 10 * a + (c.toNat - '0'.toNat)) 0

/-- An unsigned digit part `digit (("_")? digit)*`; its value ignores underscores. -/
def parseDigitPart : List Char → Option ℕ
  | [] => none
  | d :: r =>
    if d.isDigit && intTail r then some (digitsToNat ((d :: r).filter Char.isDigit))
    else none

/-- Python `int(s)` on an already-stripped string: optional sign, digit part. -/
def pyIntParse : List Char → Option ℤ
  | '+' :: rest => (parseDigitPart rest).map Int.ofNat
  | '-' :: rest => (parseDigitPart rest).map (fun n => -(Int.ofNat n))
  | rest => (parseDigitPart rest).map Int.ofNat

/-! ## Binary64 rounding (round to nearest, ties to even)

All rational values are built with `Rat.divInt` and inspected through
`.num`/`.den`/`Rat.blt`, which the kernel evaluates without obstruction. -/

/-- Fueled `⌊log₂ n⌋` (`fuel ≥ ⌈log₂ n⌉` suffices; we pass `n`). -/
def natLog2Aux : ℕ → ℕ → ℕ
  | 0, _ => 0
  | fuel + 1, n => if n ≤ 1 then 0 else 1 + natLog2Aux fuel (n / 2)

def natLog2 (n : ℕ) : ℕ := natLog2Aux n n

/-- `⌊log₂ q⌋` for a positive rational. -/
def qLog2 (q : ℚ) : ℤ :=
  let a := q.num.toNat
  let b := q.den
  let d : ℤ := Int.ofNat (natLog2 a) - Int.ofNat (natLog2 b)
  let ge : Bool :=
    if 0 ≤ d then decide (b * 2 ^ d.toNat ≤ a) else decide (b ≤ a * 2 ^ (-d).toNat)
  if ge then d else d - 1

/-- Round `A / B` to the nearest natural, ties to even. -/
def rne (A B : ℕ) : ℕ :=
  let n0 := A / B
  let r := A % B
  if B < 2 * r then n0 + 1 else if 2 * r < B then n0 else n0 + n0 % 2

/-- The dyadic rational `n * 2^E`. -/
def dyadic (n : ℕ) (E : ℤ) : ℚ :=
  if 0 ≤ E then Rat.divInt (Int.ofNat (n * 2 ^ E.toNat)) 1
  else Rat.divInt (Int.ofNat n) (Int.ofNat (2 ^ (-E).toNat))

/-- Round a positive rational to the nearest binary64 value (53-bit
significand, subnormals below `2^-1022`, granularity floor `2^-1074`);
`none` means overflow to infinity (at or beyond `2^1024` after rounding). -/
def flRoundPos (q : ℚ) : Option ℚ :=
  let e := qLog2 q
  let E := max (e - 52) (-1074)
  let A : ℕ := if E ≤ 0 then q.num.toNat * 2 ^ (-E).toNat else q.num.toNat
  let B : ℕ := if E ≤ 0 then q.den else q.den * 2 ^ E.toNat
  let n := rne A B
  let r : ℚ := dyadic n E
  if Rat.blt r (dyadic 1 1024) then some r else none

/-- Round any rational to binary64; `none` is overflow to (signed) infinity. -/
def flRound (q : ℚ) : Option ℚ :=
  if q.num = 0 then some (Rat.divInt 0 1)
  else if 0 < q.num then flRoundPos q
  else (flRoundPos (Rat.divInt (-q.num) (Int.ofNat q.den))).map
    (fun r => Rat.divInt (-r.num) (Int.ofNat r.den))

/-- Truncation toward zero of a rational (Python `int(float)` on finite values). -/
def ratTrunc (q : ℚ) : ℤ :=
  match q.num with
  | .ofNat n => Int.ofNat (n / q.den)
  | .negSucc m => -(Int.ofNat ((m + 1) / q.den))

/-! ## Python arithmetic primitives used by `_convert_aspect_ratio` -/

/-- `int / int` true division: correctly rounded, `ZeroDivisionError` on zero,
`OverflowError` when the quotient exceeds the binary64 range. -/
def pyDivII (a b : ℤ) : Except PyErr ℚ :=
  if b = 0 then .error (.zeroDivisionError "division by zero")
  else
    match flRound (Rat.divInt a b) with
    | some q => .ok q
    | none => .error (.overflowError "integer division result too large for a float")

/-- `float(int)`: `OverflowError` when the integer exceeds the binary64 range. -/
def pyFloatOfInt (n : ℤ) : Except PyErr ℚ :=
  match flRound (Rat.divInt n 1) with
  | some q => .ok q
  | none => .error (.overflowError "int too large to convert to float")

/-- Exact product of two rationals, as a rational. -/
def qMul (x y : ℚ) : ℚ :=
  Rat.divInt (x.num * y.num) (Int.ofNat (x.den * y.den))

/-- Exact quotient of two rationals (`y ≠ 0`), as a rational. -/
def qDiv (x y : ℚ) : ℚ :=
  Rat.divInt (x.num * Int.ofNat y.den) (y.num * Int.ofNat x.den)

/-- `float * float` on finite operands: correctly rounded, overflowing to infinity. -/
def pyMulFF (x y : ℚ) : PyFloat :=
  match flRound (qMul x y) with
  | some q => .finite q
  | none => if x.num * y.num < 0 then .ninf else .inf

/-- `float / float` on finite operands. -/
def pyDivFF (x y : ℚ) : Except PyErr PyFloat :=
  if y.num = 0 then .error (.zeroDivisionError "float division by zero")
  else
    match flRound (qDiv x y) with
    | some q => .ok (.finite q)
    | none => .ok (if x.num * y.num < 0 then .ninf else .inf)

/-- `int(float)`: truncation toward zero; errors on infinities and NaN. -/
def pyTruncFloat : PyFloat → Except PyErr ℤ
  | .finite q => .ok (ratTrunc q)
  | .inf => .error (.overflowError "cannot convert float infinity to integer")
  | .ninf => .error (.overflowError "cannot convert float infinity to integer")
  | .nan => .error (.valueError "cannot convert float NaN to integer")

/-! ## `float(str)` -/

/-- Parse the mantissa `digitpart | digitpart "." [digitpart] | [digitpart] "." digitpart`
into an exact rational represented as `(numerator, power-of-ten denominator exponent)`. -/
def parseMantissa (l : List Char) : Option (ℕ × ℕ) :=
  let intPart := l.takeWhile (fun c => c.isDigit || c = '_')
  match l.drop intPart.length with
  | [] => (parseDigitPart l).map (fun n => (n, 0))
  | '.' :: frac =>
    let okInt : Bool := intPart.isEmpty ||
      (match parseDigitPart intPart with | some _ => true | none => false)
    let okFrac : Bool := frac.isEmpty ||
      (match parseDigitPart frac with | some _ => true | none => false)
    if okInt && okFrac && !(intPart.isEmpty && frac.isEmpty) then
      let iv : ℕ := digitsToNat (intPart.filter Char.isDigit)
      let fd := frac.filter Char.isDigit
      some (iv * 10 ^ fd.length + digitsToNat fd, fd.length)
    else none
  | _ => none

/-- Split a float literal at its exponent marker (`e`/`E`), if any. -/
def splitExp : List Char → List Char × Option (List Char)
  | [] => ([], none)
  | c :: r =>
    if c = 'e' || c = 'E' then ([], some r)
    else
      let p := splitExp r
      (c :: p.1, p.2)

/-- The signed exponent `("e"|"E") [sign] digitpart`. -/
def parseExp : List Char → Option ℤ
  | '+' :: rest => (parseDigitPart rest).map Int.ofNat
  | '-' :: rest => (parseDigitPart rest).map (fun n => -(Int.ofNat n))
  | rest => (parseDigitPart rest).map Int.ofNat

/-- Python `float(s)` on an already-stripped string: sign, then
`inf`/`infinity`/`nan` (case-insensitive) or a decimal literal; decimal
values are correctly rounded to binary64, overflowing to infinity. -/
def pyFloatParse (l : List Char) : Option PyFloat :=
  let signed : Bool × List Char :=
    match l with
    | '+' :: rest => (false, rest)
    | '-' :: rest => (true, rest)
    | rest => (false, rest)
  let neg := signed.1
  let body := signed.2
  let low := body.map Char.toLower
  if low = "inf".data || low = "infinity".data then
    some (if neg then .ninf else .inf)
  else if low = "nan".data then
    some .nan
  else
    let parts := splitExp body
    match parseMantissa parts.1 with
    | none => none
    | some m =>
      let expOk : Option ℤ :=
        match parts.2 with
        | none => some 0
        | some etxt => parseExp etxt
      match expOk with
      | none => none
      | some ex =>
        let sn : ℤ := if neg then -(Int.ofNat m.1) else Int.ofNat m.1
        let q : ℚ :=
          if 0 ≤ ex then Rat.divInt (sn * Int.ofNat (10 ^ ex.toNat)) (Int.ofNat (10 ^ m.2))
          else Rat.divInt sn (Int.ofNat (10 ^ m.2 * 10 ^ (-ex).toNat))
        match flRound q with
        | some r => some (.finite r)
        | none => some (if q.num < 0 then .ninf else .inf)

/-! ## `_convert_aspect_ratio` -/

/-- `re.match(r"^(\d+):(\d+)$", s)`: two nonempty digit runs separated by a colon,
spanning the whole string. -/
def ratioMatch (l : List Char) : Option (ℕ × ℕ) :=
  let a := l.takeWhile Char.isDigit
  match l.drop a.length with
  | ':' :: rest =>
    if 0 < a.length && 0 < rest.length && rest.all Char.isDigit then
      some (digitsToNat a, digitsToNat rest)
    else none
  | _ => none

/-- `_convert_aspect_ratio(ratio_str, tag_name, valves)` with
`valves.WIDTH = baseW`, `valves.HEIGHT = baseH`.  The arithmetic
`width_ratio / height_ratio`, `base_width / base_height`,
`int(base_height * ratio_value)` and `int(base_width / ratio_value)` is
Python's: exact binary64 with its overflow/zero-division exceptions. -/
def convertAspectRatio (ratioStr tagName : String) (baseW baseH : ℤ) :
    Except PyErr PyVal :=
  match ratioMatch (pyStrip ratioStr).data with
  | none =>
    .error (.valueError
      s!"Invalid aspect ratio '{ratioStr}' for --{tagName}, expected format like '16:9', skipping")
  | some (wr, hr) =>
    if wr ≤ 0 || hr ≤ 0 then
      .error (.valueError s!"Invalid aspect ratio '{ratioStr}' for --{tagName}, skipping")
    else do
      let ratioValue ← pyDivII (Int.ofNat wr) (Int.ofNat hr)
      let baseRatio ← pyDivII baseW baseH
      if Rat.blt baseRatio ratioValue then
        let bhF ← pyFloatOfInt baseH
        let finalW ← pyTruncFloat (pyMulFF bhF ratioValue)
        pure (.pySize finalW baseH)
      else
        let bwF ← pyFloatOfInt baseW
        let q ← pyDivFF bwF ratioValue
        let finalH ← pyTruncFloat q
        pure (.pySize baseW finalH)

/-! ## `_convert_tag_value` -/

/-- `_convert_tag_value(tag_name, tag_value, parameter_name, valves)`. -/
def convertTagValue (tagName : String) (tagValue : Option String)
    (parameterName : String) (baseW baseH : ℤ) : Except PyErr PyVal :=
  if parameterName = "enable_safety_checker" || parameterName = "enhance_prompt" then
    match tagValue with
    | none => .ok (.pyBool true)
    | some v =>
      let vl := pyLower (pyStrip v)
      if vl = "true" || vl = "1" || vl = "yes" then .ok (.pyBool true)
      else if vl = "false" || vl = "0" || vl = "no" then .ok (.pyBool false)
      else .error (.valueError s!"Invalid boolean value '{v}' for --{tagName}, skipping")
  else
    match tagValue with
    | none => .error (.valueError s!"Tag --{tagName} requires a value, skipping")
    | some v0 =>
      let v := pyStrip v0
      if parameterName = "image_size" then
        convertAspectRatio v tagName baseW baseH
      else if parameterName = "num_inference_steps" || parameterName = "num_images"
          || parameterName = "seed" then
        match pyIntParse v.data with
        | some n => .ok (.pyInt n)
        | none =>
          .error (.valueError s!"Invalid integer value '{v}' for --{tagName}, skipping")
      else if parameterName = "guidance_scale" then
        match pyFloatParse v.data with
        | some f => .ok (.pyFloatV f)
        | none =>
          .error (.valueError s!"Invalid float value '{v}' for --{tagName}, skipping")
      else
        .ok (.pyStr v)

/-- The warning message `_convert_tag_value` raises for a boolean-flag tag
whose value is not a recognised boolean token (line 306 of the source). -/
def boolWarnMsg (v tagName : String) : String :=
  s!"Invalid boolean value '{v}' for --{tagName}, skipping"

/-! ## The model capability table and Python dicts -/

structure TagRule where
  tag : String
  parameter : String
deriving DecidableEq, Repr

structure FalModel where
  id : String
  path : String
  parseTags : List TagRule
deriving Repr

/-- The `parse_tags` table shared by the Flux models in `MODELS`. -/
def fluxRules : List TagRule :=
  [⟨"ar", "image_size"⟩, ⟨"steps", "num_inference_steps"⟩, ⟨"seed", "seed"⟩,
   ⟨"guide", "guidance_scale"⟩, ⟨"repeat", "num_images"⟩,
   ⟨"safe", "enable_safety_checker"⟩, ⟨"format", "output_format"⟩,
   ⟨"speed", "acceleration"⟩]

/-- The `MODELS[0]` entry `falai-flux-1-dev`. -/
def falaiFlux1Dev : FalModel :=
  ⟨"falai-flux-1-dev", "fal-ai/flux-1/dev", fluxRules⟩

/-- The `MODELS[1]` entry `falai-flux-kontext-dev` (adds the `enhance` tag). -/
def falaiFluxKontextDev : FalModel :=
  ⟨"falai-flux-kontext-dev", "fal-ai/flux-kontext/dev",
   fluxRules ++ [⟨"enhance", "enhance_prompt"⟩]⟩

/-- `tag_map = {item["tag"]: item["parameter"] for item in parse_tags_config}`
looked up at `tag`: a later entry with the same tag overwrites an earlier one. -/
def tagMapLookup (rules : List TagRule) (tag : String) : Option String :=
  rules.foldl (fun acc r => if r.tag = tag then some r.parameter else acc) none

/-- A Python dict with string keys: association list in insertion order,
assignment overwrites in place. -/
abbrev PyDict := List (String × PyVal)

def dictSet (d : PyDict) (k : String) (v : PyVal) : PyDict :=
  if d.any (fun p => p.1 = k) then
    d.map (fun p => if p.1 = k then (k, v) else p)
  else d ++ [(k, v)]

def dictGet (d : PyDict) (k : String) : Option PyVal :=
  (d.find? (fun p => p.1 = k)).map (·.2)

def dictKeys (d : PyDict) : List String := d.map (·.1)

/-! ## `parse_prompt_tags` -/

/-- The tag-processing loop of `parse_prompt_tags`: unknown tags and
`ValueError`s append warnings; any other exception propagates. -/
def processMatches (rules : List TagRule) (baseW baseH : ℤ) :
    List RawMatch → PyDict → List String → Except PyErr (PyDict × List String)
  | [], od, ws => .ok (od, ws)
  | m :: ms, od, ws =>
    match tagMapLookup rules (String.mk m.tag) with
    | none =>
      processMatches rules baseW baseH ms od
        (ws ++ ["Unknown tag --" ++ String.mk m.tag ++ " ignored"])
    | some param =>
      match convertTagValue (String.mk m.tag) (m.val.map String.mk) param baseW baseH with
      | .ok v => processMatches rules baseW baseH ms (dictSet od param v) ws
      | .error (.valueError msg) => processMatches rules baseW baseH ms od (ws ++ [msg])
      | .error e => .error e

/-- `parse_prompt_tags(prompt, model_config, valves)`; the returned pair is
`(cleaned_prompt, overrides)`, the warnings riding in the dict under the
`"_warnings"` key exactly as in the source. -/
def parsePromptTags (prompt : String) (model : FalModel) (baseW baseH : ℤ) :
    Except PyErr (String × PyDict) :=
  if model.parseTags = [] then .ok (prompt, [])
  else
    let scanned := tokenize prompt.data
    match processMatches model.parseTags baseW baseH scanned.1 [] [] with
    | .error e => .error e
    | .ok (od, ws) =>
      let cleaned := String.mk (normalizeWs scanned.2)
      .ok (cleaned, if ws.isEmpty then od else dictSet od "_warnings" (.pyWarnList ws))

/-! ## Derived per-match views of the processing loop

`matchWarning` and `matchOverride` restate, per token, what the loop body of
`parse_prompt_tags` does with it: at most one warning, at most one override. -/

/-- The warning a single token contributes: unknown tags and `ValueError`s. -/
def matchWarning (rules : List TagRule) (baseW baseH : ℤ) (m : RawMatch) :
    Option String :=
  match tagMapLookup rules (String.mk m.tag) with
  | none => some ("Unknown tag --" ++ String.mk m.tag ++ " ignored")
  | some param =>
    match convertTagValue (String.mk m.tag) (m.val.map String.mk) param baseW baseH with
    | .error (.valueError msg) => some msg
    | _ => none

/-- The override a single token contributes, when its coercion succeeds. -/
def matchOverride (rules : List TagRule) (baseW baseH : ℤ) (m : RawMatch) :
    Option (String × PyVal) :=
  match tagMapLookup rules (String.mk m.tag) with
  | none => none
  | some param =>
    match convertTagValue (String.mk m.tag) (m.val.map String.mk) param baseW baseH with
    | .ok v => some (param, v)
    | .error _ => none

/-- The value of the rightmost token among `ms` that resolves to parameter `P`
and whose coercion succeeds, defaulting to `acc`. -/
def lastOverrideFrom (rules : List TagRule) (baseW baseH : ℤ) (P : String)
    (acc : Option PyVal) (ms : List RawMatch) : Option PyVal :=
  ms.foldl
    (fun acc m =>
      match matchOverride rules baseW baseH m with
      | some kv => if kv.1 = P then some kv.2 else acc
      | none => acc)
    acc

/-- The value of the rightmost token that resolves to parameter `P` and whose
coercion succeeds. -/
def lastOverride (rules : List TagRule) (baseW baseH : ℤ) (P : String)
    (ms : List RawMatch) : Option PyVal :=
  lastOverrideFrom rules baseW baseH P none ms

/-- The overrides dictionary built by folding the per-token overrides over an
initial dictionary, in token order. -/
def applyOverrides (rules : List TagRule) (baseW baseH : ℤ)
    (ms : List RawMatch) (od : PyDict) : PyDict :=
  ms.foldl
    (fun d m =>
      match matchOverride rules baseW baseH m with
      | some kv => dictSet d kv.1 kv.2
      | none => d)
    od

/-! ## Spec-side definitions (stated from the specification's words, for
comparison with the source-derived definitions) -/

/-- A tag-token beginning, per the spec's §4.1 grammar: a `--` or em-dash
marker immediately followed by a word character. -/
def startsTagToken (l : List Char) : Bool :=
  match markerLen l with
  | some ml =>
    match l.drop ml with
    | c :: _ => isWordChar c
    | [] => false
  | none => false

/-- Some substring matches the spec's tag-token grammar (§4.1): since value
and boundary are optional/derived, this is exactly "some suffix starts with
marker + word character". -/
def hasTagToken (l : List Char) : Bool := l.tails.any startsTagToken

/-- Modelled from the spec (§4.4): exact-rational aspect-ratio derivation,
`requestedRatio = rw/rh`, `baseRatio = baseW/baseH`, `round_down` being
truncation toward zero. -/
def specAspectDerive (rw rh bw bh : ℤ) : ℤ × ℤ :=
  if Rat.blt (Rat.divInt bw bh) (Rat.divInt rw rh) then
    (ratTrunc (qMul (Rat.divInt bh 1) (Rat.divInt rw rh)), bh)
  else
    (bw, ratTrunc (qDiv (Rat.divInt bw 1) (Rat.divInt rw rh)))

/-! ## Concrete crash inputs -/

/-- A ratio whose quotient overflows the binary64 range:
`int(10^309 - 1) / 1` raises `OverflowError`, which `parse_prompt_tags`
does not catch (it catches only `ValueError`). -/
def overflowRatioPrompt : String :=
  "--ar " ++ String.mk (List.replicate 309 '9') ++ ":1"

/-- A ratio whose quotient underflows to `0.0`, so the taller branch divides
`base_width / 0.0` and raises `ZeroDivisionError`; the following `--steps`
tag is never processed. -/
def underflowRatioPrompt : String :=
  "--ar 1:" ++ String.mk (List.replicate 324 '9') ++ " --steps 5"

end FalPipe

deriving instance DecidableEq for Except

namespace FalPipe

set_option maxRecDepth 8000

/-! ## Concrete counterexample and crash-evaluation theorems -/

/-- C1, counterexample: on the prompt `"--foo bar"` with the `falai-flux-1-dev`
model, the dictionary `parse_prompt_tags` returns carries the diagnostics
pseudo-key `"_warnings"`, which is not a parameter name of the model's
`parse_tags` table — so the overrides mapping does contain a key outside the
`tagRules` parameter set. -/
theorem c1_warnings_key_counterexample :
    parsePromptTags "--foo bar" falaiFlux1Dev 800 1422 =
      .ok ("", [("_warnings", .pyWarnList ["Unknown tag --foo ignored"])]) ∧
    "_warnings" ∉ falaiFlux1Dev.parseTags.map TagRule.parameter := by
  decide

/-- C2, counterexample: for the prompt `"--x--y"` the tokenizer matches only
`--y` (the right-boundary lookahead rejects `--x`, which abuts the next marker
without whitespace); the cleaned prompt is `"--x"`, which still contains a
substring matching the §4.1 tag-token grammar. -/
theorem c2_counterexample :
    parsePromptTags "--x--y" falaiFlux1Dev 800 1422 =
      .ok ("--x", [("_warnings", .pyWarnList ["Unknown tag --y ignored"])]) ∧
    hasTagToken "--x".data = true := by
  decide

/-- C3, counterexample: the `--ar` tag's value `1:(10^324 - 1)` passes the
ratio pattern and the positivity check, but `1 / (10^324 - 1)` underflows to
`0.0` and `base_width / 0.0` raises `ZeroDivisionError`, which the loop does
not catch: no warning is recorded for the failing tag, the following
`--steps 5` tag is never processed, and the call does not return. -/
theorem c3_counterexample :
    parsePromptTags underflowRatioPrompt falaiFlux1Dev 800 1422 =
      .error (.zeroDivisionError "float division by zero") := by
  decide

/-- C5, counterexample: for ratio `1:75` and base `(3, 1)` the code's binary64
evaluation `int(3 / (1/75))` yields height `224` (the double `1/75` is
slightly above the exact rational, making the quotient `224.99999999999997`),
while the spec's exact formula `floor(baseW * rh / rw)` yields `225`. -/
theorem c5_counterexample :
    convertAspectRatio "1:75" "ar" 3 1 = .ok (.pySize 3 224) ∧
    specAspectDerive 1 75 3 1 = (3, 225) := by
  decide

/-- C6, counterexample: for base `(1, 93)` and the equal ratio `1:93` the
taller-or-equal branch is taken but is not a no-op: `int(1 / (1/93))`
evaluates to `92` in binary64, so the base dimensions are not returned
unchanged. -/
theorem c6_counterexample :
    convertAspectRatio "1:93" "ar" 1 93 = .ok (.pySize 1 92) ∧
    convertAspectRatio "1:93" "ar" 1 93 ≠ .ok (.pySize 1 93) := by
  decide

/-- C7, crash evaluation: the `--ar` value `(10^309 - 1):1` passes the ratio
pattern and the positivity check, but `int / int` true division overflows the
binary64 range and raises `OverflowError`; `parse_prompt_tags` catches only
`ValueError`, so the call raises instead of returning a best-effort result
with a warning. -/
theorem c7_crash_eval :
    parsePromptTags overflowRatioPrompt falaiFlux1Dev 800 1422 =
      .error (.overflowError "integer division result too large for a float") := by
  decide

/-- C8, counterexample: in `"x --steps -5"` the value group of the tokenizer
regex cannot begin with `-`, and without a value the right-boundary lookahead
fails, so `--steps` is not tokenized at all: the parser returns the prompt
unchanged with no overrides — it does not produce the integer `-5` even
though `int("-5")` would parse. -/
theorem c8_counterexample :
    parsePromptTags "x --steps -5" falaiFlux1Dev 800 1422 =
      .ok ("x --steps -5", []) := by
  decide

/-- C9, counterexample: parsing `"--x--y"` yields the cleaned prompt `"--x"`
(the removal of `--y` exposes a fresh tag token); re-running the parser on
that cleaned prompt strips `--x` and emits a warning, so the parser is not
idempotent on its own output. -/
theorem c9_counterexample :
    parsePromptTags "--x--y" falaiFlux1Dev 800 1422 =
      .ok ("--x", [("_warnings", .pyWarnList ["Unknown tag --y ignored"])]) ∧
    parsePromptTags "--x" falaiFlux1Dev 800 1422 =
      .ok ("", [("_warnings", .pyWarnList ["Unknown tag --x ignored"])]) := by
  decide

/-! ## The tag map and the Python dict -/

theorem tagMapLookup_foldl_mem (tag param : String) :
    ∀ (rules : List TagRule) (acc : Option String),
      rules.foldl (fun acc r => if r.tag = tag then some r.parameter else acc) acc
          = some param →
      param ∈ rules.map TagRule.parameter ∨ acc = some param := by
  intro rules
  induction rules with
  | nil => intro acc h; exact .inr h
  | cons r rs ih =>
    intro acc h
    simp only [List.foldl_cons] at h
    rcases ih _ h with h' | h'
    · exact .inl (by simp [h'])
    · by_cases ht : r.tag = tag
      · rw [if_pos ht] at h'
        have hre := Option.some.inj h'
        exact .inl (by simp only [List.map_cons, List.mem_cons]; exact .inl hre.symm)
      · rw [if_neg ht] at h'
        exact .inr h'

theorem tagMapLookup_mem {rules : List TagRule} {tag param : String}
    (h : tagMapLookup rules tag = some param) :
    param ∈ rules.map TagRule.parameter := by
  rcases tagMapLookup_foldl_mem tag param rules none h with h' | h'
  · exact h'
  · cases h'

theorem dictGet_dictSet (d : PyDict) (k k' : String) (v : PyVal) :
    dictGet (dictSet d k v) k' = if k' = k then some v else dictGet d k' := by
  unfold dictSet dictGet
  by_cases hk : k' = k
  · subst hk
    rw [if_pos rfl]
    split
    · -- key present: in-place rewrite
      rename_i hany
      rw [List.find?_map]
      have hpred : ((fun p : String × PyVal => decide (p.1 = k')) ∘
          fun p => if p.1 = k' then (k', v) else p)
            = fun q => decide (q.1 = k') := by
        funext q
        by_cases hq : q.1 = k' <;> simp [hq]
      rw [hpred]
      rcases hfind : d.find? (fun p => decide (p.1 = k')) with _ | q
      · rw [List.find?_eq_none] at hfind
        simp only [List.any_eq_true] at hany
        obtain ⟨q, hq, hq'⟩ := hany
        exact absurd hq' (hfind q hq)
      · have hq := List.find?_some hfind
        simp only [decide_eq_true_eq] at hq
        rw [hfind]
        simp [hq]
    · -- key absent: appended at the end
      rename_i hany
      rw [List.find?_append]
      have h0 : d.find? (fun p => decide (p.1 = k')) = none := by
        rw [List.find?_eq_none]
        intro q hq hq'
        exact hany (List.any_eq_true.mpr ⟨q, hq, hq'⟩)
      simp [h0, List.find?]
  · rw [if_neg hk]
    split
    · rw [List.find?_map]
      have hpred : ((fun p : String × PyVal => decide (p.1 = k')) ∘
          fun p => if p.1 = k then (k, v) else p)
            = fun q => decide (q.1 = k') := by
        funext q
        by_cases hq : q.1 = k <;> simp [hq]
      rw [hpred]
      rcases hfind : d.find? (fun p => decide (p.1 = k')) with _ | q
      · rw [hfind]
        rfl
      · have hq := List.find?_some hfind
        simp only [decide_eq_true_eq] at hq
        have hq2 : ¬ (q.1 = k) := fun h => hk (hq.symm.trans h)
        rw [hfind]
        simp [hq2]
    · rw [List.find?_append]
      have h1 : List.find? (fun p => decide (p.1 = k')) [(k, v)] = none := by
        simp only [List.find?]
        have : (decide ((k, v).1 = k')) = false := by
          simp
          exact fun h => absurd h.symm hk
        rw [this]
      simp [h1]

theorem dictKeys_dictSet (d : PyDict) (k : String) (v : PyVal) :
    ∀ k' ∈ dictKeys (dictSet d k v), k' ∈ dictKeys d ∨ k' = k := by
  intro k' hk'
  unfold dictSet at hk'
  split at hk'
  · left
    simp only [dictKeys, List.map_map, List.mem_map] at hk' ⊢
    obtain ⟨p, hp, hpe⟩ := hk'
    refine ⟨p, hp, ?_⟩
    by_cases hq : p.1 = k
    · simpa [hq] using hpe
    · simpa [hq] using hpe
  · simp only [dictKeys, List.map_append, List.mem_append, List.map_cons,
      List.mem_cons] at hk'
    rcases hk' with h | h
    · exact .inl h
    · rcases h with h | h
      · exact .inr h
      · cases h

/-! ## Characterising the processing loop -/

theorem matchOverride_param {rules : List TagRule} {bw bh : ℤ} {m : RawMatch}
    {kv : String × PyVal} (h : matchOverride rules bw bh m = some kv) :
    kv.1 ∈ rules.map TagRule.parameter := by
  unfold matchOverride at h
  rcases htl : tagMapLookup rules (String.mk m.tag) with _ | param
  · rw [htl] at h
    dsimp only at h
    cases h
  · rw [htl] at h
    dsimp only at h
    rcases hcv : convertTagValue (String.mk m.tag) (m.val.map String.mk) param bw bh with e | v
    · rw [hcv] at h
      dsimp only at h
      cases h
    · rw [hcv] at h
      dsimp only at h
      cases h
      exact tagMapLookup_mem htl

theorem matchWarning_none_of_override {rules : List TagRule} {bw bh : ℤ}
    {m : RawMatch} {kv : String × PyVal}
    (h : matchOverride rules bw bh m = some kv) :
    matchWarning rules bw bh m = none := by
  unfold matchOverride at h
  unfold matchWarning
  rcases htl : tagMapLookup rules (String.mk m.tag) with _ | param
  · rw [htl] at h
    dsimp only at h
    cases h
  · rw [htl] at h
    dsimp only at h ⊢
    rcases hcv : convertTagValue (String.mk m.tag) (m.val.map String.mk) param bw bh with e | v
    · rw [hcv] at h
      dsimp only at h
      cases h
    · rfl

theorem matchOverride_none_of_warning {rules : List TagRule} {bw bh : ℤ}
    {m : RawMatch} {w : String}
    (h : matchWarning rules bw bh m = some w) :
    matchOverride rules bw bh m = none := by
  unfold matchWarning at h
  unfold matchOverride
  rcases htl : tagMapLookup rules (String.mk m.tag) with _ | param
  · rfl
  · rw [htl] at h
    dsimp only at h ⊢
    rcases hcv : convertTagValue (String.mk m.tag) (m.val.map String.mk) param bw bh with e | v
    · rfl
    · rw [hcv] at h
      dsimp only at h
      cases h

/-- Core characterisation of the loop of `parse_prompt_tags`: on a normal
return, the warnings are exactly one per failing token in token order, and the
overrides are the fold of the successful coercions. -/
theorem processMatches_ok (rules : List TagRule) (bw bh : ℤ) :
    ∀ (ms : List RawMatch) (od : PyDict) (ws : List String)
      (od' : PyDict) (ws' : List String),
      processMatches rules bw bh ms od ws = .ok (od', ws') →
      ws' = ws ++ ms.filterMap (matchWarning rules bw bh) ∧
      od' = applyOverrides rules bw bh ms od := by
  intro ms
  induction ms with
  | nil =>
    intro od ws od' ws' h
    simp only [processMatches, Except.ok.injEq, Prod.mk.injEq] at h
    simp [applyOverrides, ← h.1, ← h.2]
  | cons m ms ih =>
    intro od ws od' ws' h
    simp only [processMatches] at h
    rcases htl : tagMapLookup rules (String.mk m.tag) with _ | param
    · rw [htl] at h
      dsimp only at h
      obtain ⟨hws, hod⟩ := ih _ _ _ _ h
      constructor
      · rw [hws]
        simp [List.filterMap_cons, matchWarning, htl]
      · rw [hod]
        simp [applyOverrides, matchOverride, htl]
    · rw [htl] at h
      dsimp only at h
      rcases hcv : convertTagValue (String.mk m.tag) (m.val.map String.mk) param bw bh with e | v
      · rw [hcv] at h
        rcases e with msg | msg | msg
        · dsimp only at h
          obtain ⟨hws, hod⟩ := ih _ _ _ _ h
          constructor
          · rw [hws]
            simp [List.filterMap_cons, matchWarning, htl, hcv]
          · rw [hod]
            simp [applyOverrides, matchOverride, htl, hcv]
        · dsimp only at h
          cases h
        · dsimp only at h
          cases h
      · rw [hcv] at h
        dsimp only at h
        obtain ⟨hws, hod⟩ := ih _ _ _ _ h
        constructor
        · rw [hws]
          simp [List.filterMap_cons, matchWarning, htl, hcv]
        · rw [hod]
          simp [applyOverrides, matchOverride, htl, hcv]

theorem dictKeys_applyOverrides (rules : List TagRule) (bw bh : ℤ) :
    ∀ (ms : List RawMatch) (od : PyDict) (k : String),
      k ∈ dictKeys (applyOverrides rules bw bh ms od) →
      k ∈ dictKeys od ∨ k ∈ rules.map TagRule.parameter := by
  intro ms
  induction ms with
  | nil => intro od k h; exact .inl h
  | cons m ms ih =>
    intro od k h
    simp only [applyOverrides, List.foldl_cons] at h
    rcases hmo : matchOverride rules bw bh m with _ | kv
    · rw [hmo] at h
      exact ih od k h
    · rw [hmo] at h
      rcases ih _ k h with h' | h'
      · rcases dictKeys_dictSet od kv.1 kv.2 k h' with h'' | h''
        · exact .inl h''
        · exact .inr (h'' ▸ matchOverride_param hmo)
      · exact .inr h'

theorem lastOverrideFrom_orElse (rules : List TagRule) (bw bh : ℤ) (P : String) :
    ∀ (ms : List RawMatch) (acc : Option PyVal),
      lastOverrideFrom rules bw bh P acc ms =
        match lastOverride rules bw bh P ms with
        | some v => some v
        | none => acc := by
  intro ms
  induction ms with
  | nil => intro acc; rfl
  | cons m ms ih =>
    intro acc
    have hcons : ∀ a, lastOverrideFrom rules bw bh P a (m :: ms) =
        lastOverrideFrom rules bw bh P
          (match matchOverride rules bw bh m with
           | some kv => if kv.1 = P then some kv.2 else a
           | none => a) ms := fun a => rfl
    simp only [lastOverride] at ih ⊢
    rw [hcons, hcons]
    rcases hmo : matchOverride rules bw bh m with _ | kv
    · exact ih acc
    · dsimp only
      by_cases hP : kv.1 = P
      · rw [if_pos hP, if_pos hP, ih (some kv.2)]
        rcases hO : lastOverrideFrom rules bw bh P none ms with _ | w <;> rfl
      · rw [if_neg hP, if_neg hP]
        exact ih acc

theorem dictGet_applyOverrides (rules : List TagRule) (bw bh : ℤ) (P : String) :
    ∀ (ms : List RawMatch) (od : PyDict),
      dictGet (applyOverrides rules bw bh ms od) P =
        match lastOverride rules bw bh P ms with
        | some v => some v
        | none => dictGet od P := by
  intro ms
  induction ms with
  | nil => intro od; rfl
  | cons m ms ih =>
    intro od
    simp only [applyOverrides, List.foldl_cons] at ih ⊢
    rcases hmo : matchOverride rules bw bh m with _ | kv
    · dsimp only
      rw [ih od]
      have hL : lastOverride rules bw bh P (m :: ms) = lastOverride rules bw bh P ms := by
        have h1 : lastOverrideFrom rules bw bh P none (m :: ms) =
            lastOverrideFrom rules bw bh P
              (match matchOverride rules bw bh m with
               | some kv => if kv.1 = P then some kv.2 else none
               | none => none) ms := rfl
        simp only [lastOverride, h1, hmo]
      rw [hL]
    · dsimp only
      rw [ih (dictSet od kv.1 kv.2)]
      have hL : lastOverride rules bw bh P (m :: ms) =
          match lastOverride rules bw bh P ms with
          | some v => some v
          | none => if kv.1 = P then some kv.2 else none := by
        have h1 : lastOverrideFrom rules bw bh P none (m :: ms) =
            lastOverrideFrom rules bw bh P
              (match matchOverride rules bw bh m with
               | some kv => if kv.1 = P then some kv.2 else none
               | none => none) ms := rfl
        have h2 : lastOverride rules bw bh P (m :: ms) =
            lastOverrideFrom rules bw bh P (if kv.1 = P then some kv.2 else none) ms := by
          simp only [lastOverride, h1, hmo]
        rw [h2, lastOverrideFrom_orElse]
      rw [hL]
      rcases lastOverride rules bw bh P ms with _ | w
      · dsimp only
        rw [dictGet_dictSet]
        by_cases hP : kv.1 = P
        · simp [hP]
        · have hP2 : ¬ (P = kv.1) := fun hx => hP hx.symm
          simp [hP, hP2]
      · rfl

theorem lastOverrideFrom_param (rules : List TagRule) (bw bh : ℤ) (P : String) :
    ∀ (ms : List RawMatch) (acc : Option PyVal) (v : PyVal),
      lastOverrideFrom rules bw bh P acc ms = some v →
      acc = some v ∨ P ∈ rules.map TagRule.parameter := by
  intro ms
  induction ms with
  | nil => intro acc v h; exact .inl h
  | cons m ms ih =>
    intro acc v h
    have hcons : lastOverrideFrom rules bw bh P acc (m :: ms) =
        lastOverrideFrom rules bw bh P
          (match matchOverride rules bw bh m with
           | some kv => if kv.1 = P then some kv.2 else acc
           | none => acc) ms := rfl
    rw [hcons] at h
    rcases hmo : matchOverride rules bw bh m with _ | kv
    · rw [hmo] at h
      exact ih _ _ h
    · rw [hmo] at h
      dsimp only at h
      rcases ih _ _ h with h' | h'
      · by_cases hP : kv.1 = P
        · rw [if_pos hP] at h'
          exact .inr (hP ▸ matchOverride_param hmo)
        · rw [if_neg hP] at h'
          exact .inl h'
      · exact .inr h'

/-- With an empty `parse_tags` table every lookup fails, so no token ever
produces an override. -/
theorem lastOverrideFrom_nil_rules (bw bh : ℤ) (P : String) :
    ∀ (ms : List RawMatch) (acc : Option PyVal),
      lastOverrideFrom [] bw bh P acc ms = acc := by
  intro ms
  induction ms with
  | nil => intro acc; rfl
  | cons m ms ih =>
    intro acc
    have hcons : lastOverrideFrom [] bw bh P acc (m :: ms) =
        lastOverrideFrom ([] : List TagRule) bw bh P
          (match matchOverride [] bw bh m with
           | some kv => if kv.1 = P then some kv.2 else acc
           | none => acc) ms := rfl
    rw [hcons]
    have hmo : matchOverride ([] : List TagRule) bw bh m = none := rfl
    rw [hmo]
    exact ih acc

/-- Destructuring a normal return of `parse_prompt_tags` with a nonempty
`parse_tags` table: the cleaned prompt is the residue of the token scan with
whitespace normalised, and the returned dict is the override fold plus the
`_warnings` entry when warnings were collected. -/
theorem parsePromptTags_ok_parts {p : String} {model : FalModel} {bw bh : ℤ}
    {c : String} {od : PyDict}
    (hne : model.parseTags ≠ [])
    (h : parsePromptTags p model bw bh = .ok (c, od)) :
    c = String.mk (normalizeWs (tokenize p.data).2) ∧
    od = (if ((tokenize p.data).1.filterMap (matchWarning model.parseTags bw bh)).isEmpty
          then applyOverrides model.parseTags bw bh (tokenize p.data).1 []
          else dictSet (applyOverrides model.parseTags bw bh (tokenize p.data).1 [])
                 "_warnings"
                 (.pyWarnList
                   ((tokenize p.data).1.filterMap (matchWarning model.parseTags bw bh)))) := by
  unfold parsePromptTags at h
  rw [if_neg hne] at h
  dsimp only at h
  rcases hpm : processMatches model.parseTags bw bh (tokenize p.data).1 [] [] with e | ⟨od0, ws⟩
  · rw [hpm] at h
    cases h
  · rw [hpm] at h
    dsimp only at h
    obtain ⟨hws, hod0⟩ := processMatches_ok _ _ _ _ _ _ _ _ hpm
    rw [List.nil_append] at hws
    injection h with h1
    injection h1 with hc hod
    subst hws hod0 hc hod
    exact ⟨rfl, rfl⟩

/-- C1, amended: every key of the dict `parse_prompt_tags` returns is either a
parameter name of the active model's `parse_tags` table or the `"_warnings"`
diagnostics key. -/
theorem c1_overrides_keys (p : String) (model : FalModel) (bw bh : ℤ)
    (c : String) (od : PyDict)
    (hok : parsePromptTags p model bw bh = .ok (c, od)) :
    ∀ k ∈ dictKeys od, k ∈ model.parseTags.map TagRule.parameter ∨ k = "_warnings" := by
  by_cases hne : model.parseTags = []
  · unfold parsePromptTags at hok
    rw [if_pos hne] at hok
    injection hok with h1
    injection h1 with hc hod
    subst hod
    intro k hk
    cases hk
  · obtain ⟨hc, hod⟩ := parsePromptTags_ok_parts hne hok
    intro k hk
    rw [hod] at hk
    split at hk
    · rcases dictKeys_applyOverrides _ _ _ _ _ _ hk with h' | h'
      · cases h'
      · exact .inl h'
    · rcases dictKeys_dictSet _ _ _ _ hk with h' | h'
      · rcases dictKeys_applyOverrides _ _ _ _ _ _ h' with h'' | h''
        · cases h''
        · exact .inl h''
      · exact .inr h'

/-- C1 witness at a concrete parse: the single key produced by
`"a --steps 5"` is a `parse_tags` parameter or the diagnostics key. -/
theorem c1_overrides_keys_witness :
    "num_inference_steps" ∈ falaiFlux1Dev.parseTags.map TagRule.parameter ∨
      "num_inference_steps" = "_warnings" :=
  c1_overrides_keys "a --steps 5" falaiFlux1Dev 800 1422 "a"
    [("num_inference_steps", .pyInt 5)] (by decide) "num_inference_steps" (by decide)

/-- C4: when several tokens resolve to the same parameter and coerce
successfully, the returned dict maps that parameter to the value of the
rightmost such token (`lastOverride`), and no successfully coerced token
contributes a warning.  The hypothesis that `"_warnings"` is not a parameter
name holds for every entry of the source's `MODELS` table. -/
theorem c4_last_duplicate_wins (p : String) (model : FalModel) (bw bh : ℤ)
    (c : String) (od : PyDict) (P : String) (v : PyVal)
    (hw : "_warnings" ∉ model.parseTags.map TagRule.parameter)
    (hok : parsePromptTags p model bw bh = .ok (c, od))
    (hlast : lastOverride model.parseTags bw bh P (tokenize p.data).1 = some v) :
    dictGet od P = some v ∧
      ∀ m ∈ (tokenize p.data).1,
        matchOverride model.parseTags bw bh m ≠ none →
        matchWarning model.parseTags bw bh m = none := by
  have hmem : P ∈ model.parseTags.map TagRule.parameter := by
    rcases lastOverrideFrom_param model.parseTags bw bh P _ _ _ hlast with h' | h'
    · cases h'
    · exact h'
  have hP : P ≠ "_warnings" := fun h => hw (h ▸ hmem)
  have hne : model.parseTags ≠ [] := by
    intro h0
    rw [h0] at hlast
    rw [lastOverride, lastOverrideFrom_nil_rules] at hlast
    cases hlast
  obtain ⟨hc, hod⟩ := parsePromptTags_ok_parts hne hok
  constructor
  · rw [hod]
    split
    · rw [dictGet_applyOverrides, hlast]
    · rw [dictGet_dictSet, if_neg hP, dictGet_applyOverrides, hlast]
  · intro m _ hmo
    rcases ho : matchOverride model.parseTags bw bh m with _ | kv
    · exact absurd ho hmo
    · exact matchWarning_none_of_override ho

/-- C4 witness: `"x --steps 10 --steps 20"` maps `num_inference_steps` to the
rightmost coerced value `20` and contributes no warnings. -/
theorem c4_last_duplicate_wins_witness :
    dictGet [("num_inference_steps", PyVal.pyInt 20)] "num_inference_steps" =
        some (PyVal.pyInt 20) ∧
      ∀ m ∈ (tokenize "x --steps 10 --steps 20".data).1,
        matchOverride falaiFlux1Dev.parseTags 800 1422 m ≠ none →
        matchWarning falaiFlux1Dev.parseTags 800 1422 m = none :=
  c4_last_duplicate_wins "x --steps 10 --steps 20" falaiFlux1Dev 800 1422 "x"
    [("num_inference_steps", .pyInt 20)] "num_inference_steps" (.pyInt 20)
    (by decide) (by decide) (by decide)

/-- C3, amended: on a normal return with a nonempty `parse_tags` table, the
`_warnings` entry is exactly the list of one warning per failing token in
token order (absent when no token failed), every parameter key holds the value
of the rightmost successfully coerced token for it (failing tokens produce no
override), the cleaned prompt is the scan residue with whitespace normalised
(every matched token, failing or not, is removed), and a token that warns
never also produces an override. -/
theorem c3_warnings_per_failing_tag (p : String) (model : FalModel) (bw bh : ℤ)
    (c : String) (od : PyDict)
    (hw : "_warnings" ∉ model.parseTags.map TagRule.parameter)
    (hne : model.parseTags ≠ [])
    (hok : parsePromptTags p model bw bh = .ok (c, od)) :
    dictGet od "_warnings" =
      (if ((tokenize p.data).1.filterMap (matchWarning model.parseTags bw bh)).isEmpty
        then none
        else some (.pyWarnList
          ((tokenize p.data).1.filterMap (matchWarning model.parseTags bw bh)))) ∧
    (∀ P, P ≠ "_warnings" →
      dictGet od P = lastOverride model.parseTags bw bh P (tokenize p.data).1) ∧
    c = String.mk (normalizeWs (tokenize p.data).2) ∧
    (∀ m : RawMatch, matchWarning model.parseTags bw bh m ≠ none →
      matchOverride model.parseTags bw bh m = none) := by
  obtain ⟨hc, hod⟩ := parsePromptTags_ok_parts hne hok
  have hAget : ∀ P, dictGet (applyOverrides model.parseTags bw bh (tokenize p.data).1 []) P =
      lastOverride model.parseTags bw bh P (tokenize p.data).1 := by
    intro P
    rw [dictGet_applyOverrides]
    rcases lastOverride model.parseTags bw bh P (tokenize p.data).1 with _ | w <;> rfl
  refine ⟨?_, ?_, hc, ?_⟩
  · rw [hod]
    split
    · rw [hAget]
      rcases hL : lastOverride model.parseTags bw bh "_warnings" (tokenize p.data).1 with _ | w
      · rfl
      · rcases lastOverrideFrom_param _ _ _ _ _ _ _ hL with h' | h'
        · cases h'
        · exact absurd h' hw
    · rw [dictGet_dictSet, if_pos rfl]
  · intro P hP
    rw [hod]
    split
    · exact hAget P
    · rw [dictGet_dictSet, if_neg hP]
      exact hAget P
  · intro m hm
    rcases ho : matchWarning model.parseTags bw bh m with _ | w
    · exact absurd ho hm
    · exact matchOverride_none_of_warning ho

/-- C3 witness: `"x --steps abc"` has one failing token, which yields exactly
one warning, no override, and a cleaned prompt with the token removed. -/
theorem c3_warnings_per_failing_tag_witness :
    dictGet [("_warnings", PyVal.pyWarnList ["Invalid integer value 'abc' for --steps, skipping"])]
        "_warnings" =
      (if ((tokenize "x --steps abc".data).1.filterMap
            (matchWarning falaiFlux1Dev.parseTags 800 1422)).isEmpty
        then none
        else some (.pyWarnList
          ((tokenize "x --steps abc".data).1.filterMap
            (matchWarning falaiFlux1Dev.parseTags 800 1422)))) ∧
    (∀ P, P ≠ "_warnings" →
      dictGet [("_warnings",
          PyVal.pyWarnList ["Invalid integer value 'abc' for --steps, skipping"])] P =
        lastOverride falaiFlux1Dev.parseTags 800 1422 P (tokenize "x --steps abc".data).1) ∧
    "x" = String.mk (normalizeWs (tokenize "x --steps abc".data).2) ∧
    (∀ m : RawMatch, matchWarning falaiFlux1Dev.parseTags 800 1422 m ≠ none →
      matchOverride falaiFlux1Dev.parseTags 800 1422 m = none) :=
  c3_warnings_per_failing_tag "x --steps abc" falaiFlux1Dev 800 1422 "x"
    [("_warnings", PyVal.pyWarnList ["Invalid integer value 'abc' for --steps, skipping"])]
    (by decide) (by decide) (by decide)

/-! ## Shape of captured values -/

/-- A value captured by `tryValue` starts with a character that is neither
whitespace nor a marker character (`[^\s\-—]`). -/
theorem tryValue_val_head {p v rest : List Char}
    (h : tryValue p = some (some v, rest)) :
    ∃ c r, v = c :: r ∧ isWs c = false ∧ isMarkerChar c = false := by
  unfold tryValue at h
  dsimp only at h
  have hnoval : ¬ ((if lookahead p then
      some ((none : Option (List Char)), p) else none) = some (some v, rest)) := by
    intro hx
    split at hx
    · simp at hx
    · cases hx
  by_cases hw0 : 0 < (p.takeWhile isWs).length
  · rw [if_pos hw0] at h
    rcases hdrop : p.drop (p.takeWhile isWs).length with _ | ⟨c, r⟩
    · rw [hdrop] at h
      dsimp only at h
      exact absurd h hnoval
    · rw [hdrop] at h
      dsimp only at h
      by_cases hg : (!isWs c && !isMarkerChar c) = true
      · rw [if_pos hg] at h
        rcases hve : valExt r with _ | q
        · rw [hve] at h
          dsimp only [Option.map] at h
          exact absurd h hnoval
        · rw [hve] at h
          dsimp only [Option.map] at h
          injection h with h1
          injection h1 with h1a h1b
          injection h1a with h1c
          have hg' := hg
          simp only [Bool.and_eq_true, Bool.not_eq_true'] at hg'
          exact ⟨c, q.1, h1c.symm, hg'.1, hg'.2⟩
      · rw [if_neg hg] at h
        dsimp only at h
        exact absurd h hnoval
  · rw [if_neg hw0] at h
    dsimp only at h
    exact absurd h hnoval

/-- `tryTagName` only returns values produced by `tryValue`. -/
theorem tryTagName_val_head :
    ∀ (nr p : List Char) (name v rest : List Char),
      tryTagName nr p = some (name, some v, rest) →
      ∃ c r, v = c :: r ∧ isWs c = false ∧ isMarkerChar c = false := by
  intro nr
  induction nr with
  | nil => intro p name v rest h; cases h
  | cons ch nr ih =>
    intro p name v rest h
    unfold tryTagName at h
    rcases htv : tryValue p with _ | ⟨v0, r0⟩
    · rw [htv] at h
      exact ih _ _ _ _ h
    · rw [htv] at h
      dsimp only at h
      injection h with h1
      injection h1 with h1a h1b
      injection h1b with h1c h1d
      subst h1c
      exact tryValue_val_head htv

/-- `tryMatchAt` only returns values produced by `tryValue`. -/
theorem tryMatchAt_val_head {s name v rest : List Char}
    (h : tryMatchAt s = some (name, some v, rest)) :
    ∃ c r, v = c :: r ∧ isWs c = false ∧ isMarkerChar c = false := by
  unfold tryMatchAt at h
  rcases hml : markerLen s with _ | ml
  · rw [hml] at h
    cases h
  · rw [hml] at h
    dsimp only at h
    exact tryTagName_val_head _ _ _ _ _ h

/-- Every value captured by the scanner starts with a character that is
neither whitespace nor a marker character. -/
theorem scanRem_val_head :
    ∀ (fuel : ℕ) (l : List Char) (m : RawMatch) (v : List Char),
      m ∈ (scanRem fuel l).1 → m.val = some v →
      ∃ c r, v = c :: r ∧ isWs c = false ∧ isMarkerChar c = false := by
  intro fuel
  induction fuel with
  | zero => intro l m v hm _; cases hm
  | succ fuel ih =>
    intro l m v hm hv
    match l with
    | [] => cases hm
    | c0 :: rest =>
      rw [scanRem] at hm
      rcases htm : tryMatchAt (c0 :: rest) with _ | ⟨name, v0, after⟩
      · rw [htm] at hm
        exact ih _ _ _ hm hv
      · rw [htm] at hm
        dsimp only at hm
        rcases List.mem_cons.mp hm with he | ht
        · subst he
          dsimp only at hv
          subst hv
          exact tryMatchAt_val_head htm
        · exact ih _ _ _ ht hv

/-- C8, amended: a stripped value parsing as a base-10 integer with optional
sign coerces to that integer for the integer-kind parameters, but the
tokenizer can never capture a value starting with `-`, so a negative inline
value (as in `"--steps -5"`) never reaches the coercion: the token is not
matched at all and produces no override. -/
theorem c8_signed_int :
    (∀ (tagName v param : String) (bw bh : ℤ) (n : ℤ),
      (param = "num_inference_steps" ∨ param = "num_images" ∨ param = "seed") →
      pyIntParse (pyStrip v).data = some n →
      convertTagValue tagName (some v) param bw bh = .ok (.pyInt n)) ∧
    (∀ (l : List Char) (m : RawMatch) (v : List Char),
      m ∈ (tokenize l).1 → m.val = some v → v.head? ≠ some '-') := by
  constructor
  · intro tagName v param bw bh n hparam hint
    rcases hparam with h | h | h <;> subst h <;>
      · unfold convertTagValue
        dsimp only
        rw [if_neg (by decide), if_neg (by decide), if_pos (by decide), hint]
  · intro l m v hm hv
    obtain ⟨c, r, hvc, _, hmk⟩ := scanRem_val_head _ _ _ _ hm hv
    subst hvc
    simp only [List.head?]
    intro hc
    injection hc with hc2
    subst hc2
    simp [isMarkerChar] at hmk

/-- C8 witness: the value `" +5"` strips to `"+5"`, parses as `5`, and coerces
to the integer override `5`. -/
theorem c8_signed_int_witness :
    convertTagValue "steps" (some " +5") "num_inference_steps" 800 1422 =
      .ok (.pyInt 5) :=
  c8_signed_int.1 "steps" " +5" "num_inference_steps" 800 1422 5 (.inl rfl) (by decide)

/-! ## Aspect-ratio derivation -/

/-- C5, amended: the derivation is performed in binary64 arithmetic with
`int()` truncation — which can fall below the exact rational floor (see the
counterexample) — but one base dimension is always anchored exactly, and the
spec's concrete example `base (800, 1422)`, ratio `16:9` does yield
`(2528, 1422)`. -/
theorem c5_aspect_derivation :
    convertAspectRatio "16:9" "ar" 800 1422 = .ok (.pySize 2528 1422) ∧
    ∀ (s t : String) (bw bh w h : ℤ),
      convertAspectRatio s t bw bh = .ok (.pySize w h) → w = bw ∨ h = bh := by
  constructor
  · decide
  · intro s t bw bh w h hok
    unfold convertAspectRatio at hok
    rcases hrm : ratioMatch (pyStrip s).data with _ | ⟨wr, hr⟩
    · rw [hrm] at hok
      cases hok
    · rw [hrm] at hok
      dsimp only at hok
      split at hok
      · cases hok
      · simp only [bind, Except.bind, pure, Except.pure] at hok
        rcases h1 : pyDivII (Int.ofNat wr) (Int.ofNat hr) with e | rv
        · rw [h1] at hok; cases hok
        · rw [h1] at hok
          dsimp only at hok
          rcases h2 : pyDivII bw bh with e | br
          · rw [h2] at hok; cases hok
          · rw [h2] at hok
            dsimp only at hok
            split at hok
            · rcases h3 : pyFloatOfInt bh with e | bhF
              · rw [h3] at hok; cases hok
              · rw [h3] at hok
                dsimp only at hok
                rcases h4 : pyTruncFloat (pyMulFF bhF rv) with e | fw
                · rw [h4] at hok; cases hok
                · rw [h4] at hok
                  dsimp only at hok
                  injection hok with hv
                  injection hv with hfw hbh
                  exact .inr hbh.symm
            · rcases h3 : pyFloatOfInt bw with e | bwF
              · rw [h3] at hok; cases hok
              · rw [h3] at hok
                dsimp only at hok
                rcases h4 : pyDivFF bwF rv with e | q
                · rw [h4] at hok; cases hok
                · rw [h4] at hok
                  dsimp only at hok
                  rcases h5 : pyTruncFloat q with e | fh
                  · rw [h5] at hok; cases hok
                  · rw [h5] at hok
                    dsimp only at hok
                    injection hok with hv
                    injection hv with hbw hfh
                    exact .inl hbw.symm

/-- C5 witness: for ratio `1:2` on base `(10, 10)` the code returns
`(10, 20)`, in which the width is the anchored base dimension. -/
theorem c5_aspect_derivation_witness : (10 : ℤ) = 10 ∨ (20 : ℤ) = 10 :=
  c5_aspect_derivation.2 "1:2" "ar" 10 10 10 20 (by decide)

/-- C6, amended: when the requested ratio equals the base ratio
(`wr * bh = hr * bw`) both divisions round to the same double, the
strict-greater test fails, and the taller-or-equal branch runs, anchoring
`width = baseW`; the height, however, is recomputed as
`int(baseW / float(wr/hr))` and need not equal `baseH` (see the
counterexample).  On the spec's base `(800, 1422)` the equal ratio `400:711`
does return the base unchanged. -/
theorem c6_equal_ratio :
    convertAspectRatio "400:711" "ar" 800 1422 = .ok (.pySize 800 1422) ∧
    ∀ (s t : String) (wr hr : ℕ) (bw bh : ℤ) (r : PyVal),
      ratioMatch (pyStrip s).data = some (wr, hr) →
      0 < wr → 0 < hr → 0 < bw → 0 < bh →
      (wr : ℤ) * bh = (hr : ℤ) * bw →
      convertAspectRatio s t bw bh = .ok r →
      ∃ fh, r = .pySize bw fh := by
  constructor
  · decide
  · intro s t wr hr bw bh r hrm hwr hhr hbw hbh heq hok
    unfold convertAspectRatio at hok
    rw [hrm] at hok
    dsimp only at hok
    rw [if_neg (by simp [Nat.le_zero]; omega)] at hok
    have hdiv : pyDivII (Int.ofNat wr) (Int.ofNat hr) = pyDivII bw bh := by
      unfold pyDivII
      rw [if_neg (show ¬ (Int.ofNat hr = 0) by
          simp only [Int.ofNat_eq_natCast, Int.natCast_eq_zero]; omega),
        if_neg (show ¬ (bh = 0) by omega)]
      have hq : Rat.divInt (Int.ofNat wr) (Int.ofNat hr) = Rat.divInt bw bh := by
        rw [Rat.divInt_eq_iff (show (Int.ofNat hr) ≠ 0 by
            simp only [ne_eq, Int.ofNat_eq_natCast, Int.natCast_eq_zero]; omega)
          (show bh ≠ 0 by omega)]
        exact heq.trans (Int.mul_comm _ _)
      rw [hq]
    rw [hdiv] at hok
    simp only [bind, Except.bind, pure, Except.pure] at hok
    rcases h1 : pyDivII bw bh with e | rv
    · rw [h1] at hok; cases hok
    · rw [h1] at hok
      try dsimp only at hok
      have hblt : Rat.blt rv rv = false := by
        cases hb : Rat.blt rv rv with
        | false => rfl
        | true => exact absurd (show rv < rv from hb) (lt_irrefl rv)
      simp only [hblt, Bool.false_eq_true, if_false] at hok
      rcases h3 : pyFloatOfInt bw with e | bwF
      · rw [h3] at hok; cases hok
      · rw [h3] at hok
        dsimp only at hok
        rcases h4 : pyDivFF bwF rv with e | q
        · rw [h4] at hok; cases hok
        · rw [h4] at hok
          dsimp only at hok
          rcases h5 : pyTruncFloat q with e | fh
          · rw [h5] at hok; cases hok
          · rw [h5] at hok
            dsimp only at hok
            injection hok with hv
            exact ⟨fh, hv.symm⟩

/-- C6 witness: the equal ratio `1:1` on base `(5, 5)` keeps the width at the
base value. -/
theorem c6_equal_ratio_witness : ∃ fh, PyVal.pySize 5 5 = PyVal.pySize 5 fh :=
  c6_equal_ratio.2 "1:1" "ar" 1 1 5 5 (PyVal.pySize 5 5) (by decide)
    (by decide) (by decide) (by decide) (by decide) (by decide) (by decide)

/-! ## Characters surviving in the cleaned prompt -/

theorem collapseAux_chars :
    ∀ (l : List Char) (b : Bool) (c : Char), c ∈ collapseAux b l → c ∈ l ∨ c = ' ' := by
  intro l
  induction l with
  | nil => intro b c h; cases h
  | cons d r ih =>
    intro b c h
    unfold collapseAux at h
    split at h
    · split at h
      · rcases ih _ _ h with h' | h'
        · exact .inl (List.mem_cons_of_mem _ h')
        · exact .inr h'
      · rcases List.mem_cons.mp h with h' | h'
        · exact .inr h'
        · rcases ih _ _ h' with h'' | h''
          · exact .inl (List.mem_cons_of_mem _ h'')
          · exact .inr h''
    · rcases List.mem_cons.mp h with h' | h'
      · exact .inl (h' ▸ List.mem_cons_self _ _)
      · rcases ih _ _ h' with h'' | h''
        · exact .inl (List.mem_cons_of_mem _ h'')
        · exact .inr h''

theorem stripChars_chars {l : List Char} {c : Char} (h : c ∈ stripChars l) : c ∈ l := by
  unfold stripChars at h
  rw [List.mem_reverse] at h
  have h2 : c ∈ (l.dropWhile isWs).reverse :=
    List.Sublist.mem h (List.dropWhile_sublist _)
  rw [List.mem_reverse] at h2
  exact List.Sublist.mem h2 (List.dropWhile_sublist _)

theorem normalizeWs_chars {l : List Char} {c : Char} (h : c ∈ normalizeWs l) :
    c ∈ l ∨ c = ' ' := by
  unfold normalizeWs at h
  exact collapseAux_chars l false c (stripChars_chars h)

theorem markerLen_none_of_all {s : List Char}
    (h : ∀ c ∈ s, isMarkerChar c = false) : markerLen s = none := by
  match s with
  | [] => rfl
  | c1 :: rest =>
    have h1 := h c1 (List.mem_cons_self _ _)
    simp only [isMarkerChar, Bool.or_eq_false_iff, decide_eq_false_iff_not] at h1
    unfold markerLen
    dsimp only
    rw [if_neg h1.2, if_neg h1.1]

theorem startsTagToken_eq_false {t : List Char}
    (h : ∀ c ∈ t, isMarkerChar c = false) : startsTagToken t = false := by
  unfold startsTagToken
  rw [markerLen_none_of_all h]

theorem hasTagToken_eq_false {l : List Char}
    (h : ∀ c ∈ l, isMarkerChar c = false) : hasTagToken l = false := by
  unfold hasTagToken
  rw [List.any_eq_false]
  intro t ht
  rw [List.mem_tails] at ht
  have hsub : ∀ c ∈ t, isMarkerChar c = false := fun c hc =>
    h c (List.Sublist.mem hc ht.sublist)
  simp [startsTagToken_eq_false hsub]

/-- C2, amended: when every hyphen-minus and em-dash of the prompt is consumed
by a tokenizer match (none survives into the scan residue), the cleaned prompt
contains no substring matching the §4.1 tag-token grammar; the counterexample
shows the hypothesis is necessary. -/
theorem c2_cleaned_no_tag_token (p : String) (model : FalModel) (bw bh : ℤ)
    (c : String) (od : PyDict)
    (hne : model.parseTags ≠ [])
    (hok : parsePromptTags p model bw bh = .ok (c, od))
    (hmk : ∀ ch ∈ (tokenize p.data).2, isMarkerChar ch = false) :
    hasTagToken c.data = false := by
  obtain ⟨hc, _⟩ := parsePromptTags_ok_parts hne hok
  have hcd : c.data = normalizeWs (tokenize p.data).2 := by rw [hc]
  rw [hcd]
  apply hasTagToken_eq_false
  intro ch hch
  rcases normalizeWs_chars hch with h' | h'
  · exact hmk ch h'
  · rw [h']
    rfl

/-- C2 witness: in `"a --x b"` the whole token `--x b` is matched and removed
(all hyphens consumed), and the cleaned prompt `"a"` contains no tag token. -/
theorem c2_cleaned_no_tag_token_witness : hasTagToken "a".data = false :=
  c2_cleaned_no_tag_token "a --x b" falaiFlux1Dev 800 1422 "a"
    [("_warnings", .pyWarnList ["Unknown tag --x ignored"])]
    (by decide) (by decide) (by decide)

/-! ## Idempotence of whitespace normalisation -/

theorem collapseAux_true_head :
    ∀ (l : List Char) (c0 : Char), (collapseAux true l).head? = some c0 →
      isWs c0 = false := by
  intro l
  induction l with
  | nil => intro c0 h; cases h
  | cons d r ih =>
    intro c0 h
    unfold collapseAux at h
    split at h
    · exact ih c0 h
    · rename_i hwd
      rw [List.head?_cons] at h
      injection h with h1
      rw [← h1]
      exact Bool.eq_false_iff.mpr hwd

theorem collapseAux_canonical :
    ∀ (l : List Char) (b : Bool), WsCanonical (collapseAux b l) := by
  intro l
  induction l with
  | nil =>
    intro b
    exact ⟨fun c hc => absurd hc (List.not_mem_nil c), List.chain'_nil⟩
  | cons d r ih =>
    intro b
    unfold collapseAux
    split
    · split
      · exact ih true
      · constructor
        · intro c hc hws
          rcases List.mem_cons.mp hc with h' | h'
          · exact h'
          · exact (ih true).1 c h' hws
        · rw [List.chain'_cons']
          refine ⟨?_, (ih true).2⟩
          intro y hy
          have := collapseAux_true_head r y hy
          intro hcon
          rw [this] at hcon
          exact Bool.false_ne_true hcon.2
    · rename_i hwd
      constructor
      · intro c hc hws
        rcases List.mem_cons.mp hc with h' | h'
        · rw [h'] at hws
          rw [hws] at hwd
          exact absurd rfl hwd
        · exact (ih false).1 c h' hws
      · rw [List.chain'_cons']
        refine ⟨?_, (ih false).2⟩
        intro y _ hcon
        exact hwd hcon.1

theorem wsCanonical_suffix {l l' : List Char} (h : WsCanonical l) (hs : l' <:+ l) :
    WsCanonical l' :=
  ⟨fun c hc hws => h.1 c (List.Sublist.mem hc hs.sublist) hws, h.2.suffix hs⟩

theorem wsCanonical_prefix {l l' : List Char} (h : WsCanonical l) (hs : l' <+: l) :
    WsCanonical l' :=
  ⟨fun c hc hws => h.1 c (List.Sublist.mem hc hs.sublist) hws,
    List.Chain'.prefix h.2 hs⟩

theorem stripChars_prefix (l : List Char) :
    stripChars l <+: l.dropWhile isWs := by
  unfold stripChars
  have h : (l.dropWhile isWs).reverse.dropWhile isWs <:+ (l.dropWhile isWs).reverse :=
    List.dropWhile_suffix _
  have h2 : ((l.dropWhile isWs).reverse.dropWhile isWs).reverse.reverse <:+
      (l.dropWhile isWs).reverse := by
    rw [List.reverse_reverse]
    exact h
  exact List.reverse_suffix.mp h2

theorem dropWhile_head_not {l : List Char} {c0 : Char}
    (h : (l.dropWhile isWs).head? = some c0) : isWs c0 = false := by
  induction l with
  | nil => cases h
  | cons d r ih =>
    rw [List.dropWhile_cons] at h
    split at h
    · exact ih h
    · rename_i hwd
      rw [List.head?_cons] at h
      injection h with h1
      rw [← h1]
      exact Bool.eq_false_iff.mpr hwd

theorem isPrefix_head {l l' : List α} {c0 : α} (h : l' <+: l) (hh : l'.head? = some c0) :
    l.head? = some c0 := by
  obtain ⟨t, ht⟩ := h
  rw [← ht, List.head?_append, hh]
  rfl

theorem stripChars_head {l : List Char} {c0 : Char}
    (h : (stripChars l).head? = some c0) : isWs c0 = false :=
  dropWhile_head_not (isPrefix_head ( stripChars_prefix l) h)

theorem stripChars_getLast {l : List Char} {c0 : Char}
    (h : (stripChars l).getLast? = some c0) : isWs c0 = false := by
  unfold stripChars at h
  rw [List.getLast?_reverse] at h
  exact dropWhile_head_not h

theorem wsCanonical_stripChars {l : List Char} (h : WsCanonical l) :
    WsCanonical (stripChars l) :=
  wsCanonical_prefix (wsCanonical_suffix h (List.dropWhile_suffix _))
    ( stripChars_prefix l)

theorem collapseAux_id :
    ∀ (l : List Char), WsCanonical l →
      collapseAux false l = l ∧
        ((∀ c0, l.head? = some c0 → isWs c0 = false) → collapseAux true l = l) := by
  intro l
  induction l with
  | nil => exact fun _ => ⟨rfl, fun _ => rfl⟩
  | cons d r ih =>
    intro hcan
    have hhead := (List.chain'_cons'.mp hcan.2).1
    have hcanr : WsCanonical r := ⟨fun c hc => hcan.1 c (List.mem_cons_of_mem _ hc),
      (List.chain'_cons'.mp hcan.2).2⟩
    have ihr := ih hcanr
    constructor
    · unfold collapseAux
      split
      · rename_i hwd
        have hd : d = ' ' := hcan.1 d (List.mem_cons_self _ _) hwd
        have hr : collapseAux true r = r := by
          apply ihr.2
          intro c0 hc0
          have hy := hhead c0 (by rw [hc0]; rfl)
          rcases hb : isWs c0 with _ | _
          · rfl
          · exact absurd ⟨hwd, hb⟩ hy
        rw [if_neg Bool.false_ne_true, hr, hd]
      · rw [ihr.1]
    · intro hdw
      have hwd : isWs d = false := hdw d rfl
      unfold collapseAux
      rw [if_neg (by simp [hwd])]
      rw [ihr.1]

theorem dropWhile_id {l : List Char}
    (h : ∀ c0, l.head? = some c0 → isWs c0 = false) : l.dropWhile isWs = l := by
  match l with
  | [] => rfl
  | d :: r =>
    rw [List.dropWhile_cons, if_neg (by simp [h d rfl])]

theorem stripChars_id {l : List Char}
    (hh : ∀ c0, l.head? = some c0 → isWs c0 = false)
    (hl : ∀ c0, l.getLast? = some c0 → isWs c0 = false) : stripChars l = l := by
  unfold stripChars
  rw [dropWhile_id hh]
  rw [dropWhile_id (by intro c0 hc0; rw [List.head?_reverse] at hc0; exact hl c0 hc0)]
  exact List.reverse_reverse l

theorem normalizeWs_idem (l : List Char) :
    normalizeWs (normalizeWs l) = normalizeWs l := by
  have hcan : WsCanonical (normalizeWs l) :=
    wsCanonical_stripChars (collapseAux_canonical l false)
  have hh : ∀ c0, (normalizeWs l).head? = some c0 → isWs c0 = false := by
    intro c0 hc0
    exact stripChars_head hc0
  have hl : ∀ c0, (normalizeWs l).getLast? = some c0 → isWs c0 = false := by
    intro c0 hc0
    exact stripChars_getLast hc0
  show stripChars (collapseAux false (normalizeWs l)) = normalizeWs l
  rw [(collapseAux_id (normalizeWs l) hcan).1]
  exact stripChars_id hh hl

/-! ## A scan with no matches keeps the text unchanged -/

theorem scanRem_no_match :
    ∀ (fuel : ℕ) (l : List Char), (scanRem fuel l).1 = [] → (scanRem fuel l).2 = l := by
  intro fuel
  induction fuel with
  | zero => intro l _; rfl
  | succ fuel ih =>
    intro l h
    match l with
    | [] => rfl
    | c :: rest =>
      rw [scanRem] at h ⊢
      rcases htm : tryMatchAt (c :: rest) with _ | ⟨name, v, after⟩
      · rw [htm] at h
        dsimp only at h ⊢
        rw [ih rest h]
      · rw [htm] at h
        dsimp only at h
        cases h

/-- C9, amended: when the tokenizer finds no token in the cleaned prompt,
re-running `parse_prompt_tags` on it returns it unchanged with an empty
overrides dictionary (hence no warnings); the counterexample shows that
without this hypothesis a second run can strip further text. -/
theorem c9_idempotent_when_no_token (p : String) (model : FalModel) (bw bh : ℤ)
    (c : String) (od : PyDict)
    (hok : parsePromptTags p model bw bh = .ok (c, od))
    (hnt : (tokenize c.data).1 = []) :
    parsePromptTags c model bw bh = .ok (c, []) := by
  by_cases hne : model.parseTags = []
  · unfold parsePromptTags
    rw [if_pos hne]
  · obtain ⟨hc, _⟩ := parsePromptTags_ok_parts hne hok
    unfold parsePromptTags
    rw [if_neg hne]
    dsimp only
    rw [hnt]
    dsimp only [processMatches]
    have hkept : (tokenize c.data).2 = c.data := scanRem_no_match _ _ hnt
    rw [hkept]
    have hcd : c.data = normalizeWs (tokenize p.data).2 := by rw [hc]
    have hnn : normalizeWs c.data = c.data := by
      rw [hcd]
      exact normalizeWs_idem _
    rw [hnn]
    rfl

/-- C9 witness: `"a --steps 5"` cleans to `"a"`, which contains no token, and
re-running the parser on `"a"` returns it unchanged with no overrides. -/
theorem c9_idempotent_when_no_token_witness :
    parsePromptTags "a" falaiFlux1Dev 800 1422 = .ok ("a", []) :=
  c9_idempotent_when_no_token "a --steps 5" falaiFlux1Dev 800 1422 "a"
    [("num_inference_steps", .pyInt 5)] (by decide) (by decide)

/-- A suffix headed by a non-marker character starts no marker. -/
theorem markerLen_cons_none {c : Char} {r : List Char}
    (h : isMarkerChar c = false) : markerLen (c :: r) = none := by
  unfold isMarkerChar at h
  have h1 : ¬ (c = '—') := by
    intro hc
    rw [hc] at h
    simp at h
  have h2 : ¬ (c = '-') := by
    intro hc
    rw [hc] at h
    simp at h
  unfold markerLen
  dsimp only
  rw [if_neg h1, if_neg h2]

/-- On a marker-free suffix the lookahead can only fire through `$`. -/
theorem lookahead_eq_false {s : List Char}
    (hmk : ∀ c ∈ s, isMarkerChar c = false) (hd : atDollar s = false) :
    lookahead s = false := by
  unfold lookahead
  rw [hd]
  dsimp only
  rw [markerLen_none_of_all (fun c hc => hmk c (List.mem_of_mem_drop hc))]
  simp

/-- On a marker-free suffix whose last character is not a newline, the lazy
value tail extends all the way to the end of the string. -/
theorem valExt_all :
    ∀ (r : List Char), (∀ c ∈ r, isMarkerChar c = false) →
      r.getLast? ≠ some '\n' → valExt r = some (r, []) := by
  intro r
  induction r with
  | nil => intro _ _; rfl
  | cons c r' ih =>
    intro hmk hlast
    have hdollar : atDollar (c :: r') = false := by
      unfold atDollar
      rcases r' with _ | ⟨d, r''⟩
      · have hc : ¬ (c = '\n') := fun hc => hlast (by rw [hc]; rfl)
        simp [hc]
      · simp
    have hla : lookahead (c :: r') = false := lookahead_eq_false hmk hdollar
    have hlast' : r'.getLast? ≠ some '\n' := by
      rcases r' with _ | ⟨d, r''⟩
      · simp
      · rw [← List.getLast?_cons_cons]
        exact hlast
    unfold valExt
    rw [hla, if_neg Bool.false_ne_true,
      hmk c (List.mem_cons_self c r'), if_neg Bool.false_ne_true,
      ih (fun x hx => hmk x (List.mem_cons_of_mem c hx)) hlast']
    rfl

/-- Splitting a suffix at its leading whitespace run: when the left part has
a non-whitespace character, appending more text changes neither the run nor
the character right after it. -/
theorem ws_run_split :
    ∀ (l : List Char), (∃ x ∈ l, isWs x = false) → ∀ (s : List Char),
      (l ++ s).takeWhile isWs = l.takeWhile isWs ∧
      ∃ c2 rest2,
        (l ++ s).drop (((l ++ s).takeWhile isWs).length) = c2 :: (rest2 ++ s) ∧
        c2 ∈ l ∧ isWs c2 = false := by
  intro l
  induction l with
  | nil => rintro ⟨x, hx, _⟩; cases hx
  | cons d t ih =>
    rintro ⟨x, hx, hxw⟩ s
    cases hwd : isWs d with
    | false =>
      have hd : ¬ (isWs d = true) := by simp [hwd]
      rw [List.cons_append, List.takeWhile_cons_of_neg hd,
        List.takeWhile_cons_of_neg hd]
      exact ⟨rfl, d, t, rfl, List.mem_cons_self d t, hwd⟩
    | true =>
      have hxt : x ∈ t := by
        rcases List.mem_cons.mp hx with h | h
        · rw [h, hwd] at hxw
          cases hxw
        · exact h
      obtain ⟨htw, c2, rest2, hdrop, hc2mem, hc2w⟩ := ih ⟨x, hxt, hxw⟩ s
      rw [htw] at hdrop
      rw [List.cons_append, List.takeWhile_cons_of_pos hwd,
        List.takeWhile_cons_of_pos hwd]
      refine ⟨by rw [htw], c2, rest2, ?_, List.mem_cons_of_mem d hc2mem, hc2w⟩
      rw [htw, List.length_cons, List.drop_succ_cons]
      exact hdrop

/-- After a marker-free chunk with a non-whitespace character, appending any
nonempty text never satisfies the lookahead at the chunk's head. -/
theorem lookahead_append_false {l sep : List Char}
    (hmk : ∀ c ∈ l, isMarkerChar c = false)
    (hnw : ∃ x ∈ l, isWs x = false) (hsep : sep ≠ []) :
    lookahead (l ++ sep) = false := by
  obtain ⟨htw, c2, rest2, hdrop, hc2mem, _⟩ := ws_run_split l hnw sep
  have hd : atDollar (l ++ sep) = false := by
    rcases l with _ | ⟨d, t⟩
    · obtain ⟨x, hx, _⟩ := hnw
      cases hx
    · rw [List.cons_append]
      unfold atDollar
      dsimp only
      have hne : (t ++ sep).isEmpty = false :=
        List.isEmpty_eq_false.mpr (fun h => hsep (List.append_eq_nil.mp h).2)
      rw [hne, Bool.and_false]
  unfold lookahead
  rw [hd, Bool.false_or]
  dsimp only
  rw [hdrop, markerLen_cons_none (hmk c2 hc2mem), Option.isSome_none,
    Bool.and_false]

/-- When the value text is marker-free and ends in a non-whitespace character,
the lazy tail stops exactly at an appended separator that satisfies the
lookahead. -/
theorem valExt_append_sep :
    ∀ (r sep : List Char), (∀ c ∈ r, isMarkerChar c = false) →
      (∀ c0, r.getLast? = some c0 → isWs c0 = false) →
      lookahead sep = true → sep ≠ [] →
      valExt (r ++ sep) = some (r, sep) := by
  intro r
  induction r with
  | nil =>
    intro sep _ _ hla hne
    rcases sep with _ | ⟨c, s'⟩
    · exact absurd rfl hne
    · show valExt (c :: s') = some ([], c :: s')
      unfold valExt
      rw [hla, if_pos rfl]
  | cons c r' ih =>
    intro sep hmk hlast hla hne
    have hex : ∃ x ∈ c :: r', isWs x = false := by
      refine ⟨(c :: r').getLast (by simp), List.getLast_mem _, ?_⟩
      exact hlast _ (List.getLast?_eq_getLast _ _)
    have hlast' : ∀ c0, r'.getLast? = some c0 → isWs c0 = false := by
      intro c0 h0
      apply hlast c0
      rcases r' with _ | ⟨d, r''⟩
      · simp at h0
      · rw [List.getLast?_cons_cons]
        exact h0
    have hlaf : lookahead (c :: (r' ++ sep)) = false :=
      lookahead_append_false hmk hex hne
    show valExt (c :: (r' ++ sep)) = some (c :: r', sep)
    unfold valExt
    rw [hlaf, if_neg Bool.false_ne_true,
      hmk c (List.mem_cons_self c r'), if_neg Bool.false_ne_true,
      ih sep (fun x hx => hmk x (List.mem_cons_of_mem c hx)) hlast' hla hne]
    rfl

/-- The value group fires after a single space when the first value character
is neither whitespace nor a marker. -/
theorem tryValue_space {c0 : Char} {R V rest : List Char}
    (h0 : isWs c0 = false) (h1 : isMarkerChar c0 = false)
    (hve : valExt R = some (V, rest)) :
    tryValue (' ' :: c0 :: R) = some (some (c0 :: V), rest) := by
  have hw : ¬ (isWs c0 = true) := by simp [h0]
  unfold tryValue
  dsimp only
  rw [List.takeWhile_cons_of_pos (show isWs ' ' = true from rfl),
    List.takeWhile_cons_of_neg hw]
  rw [if_pos (by decide : 0 < ([' '] : List Char).length)]
  rw [show (' ' :: c0 :: R).drop ([' '] : List Char).length = c0 :: R from rfl]
  dsimp only
  rw [h0, h1]
  rw [if_pos (show (!false && !false) = true from rfl)]
  rw [hve]
  rfl

/-- Backtracking succeeds immediately when the value attempt succeeds. -/
theorem tryTagName_step {c : Char} {nr p : List Char} {v : Option (List Char)}
    {rest : List Char} (h : tryValue p = some (v, rest)) :
    tryTagName (c :: nr) p = some ((c :: nr).reverse, v, rest) := by
  unfold tryTagName
  rw [h]

/-- The whole pattern matches at `--safe <value...>`: the word run stops at the
space, and the value group captures from the first value character on. -/
theorem tryMatchAt_safe {c0 : Char} {R V rest : List Char}
    (h0 : isWs c0 = false) (h1 : isMarkerChar c0 = false)
    (hve : valExt R = some (V, rest)) :
    tryMatchAt ('-' :: '-' :: 's' :: 'a' :: 'f' :: 'e' :: ' ' :: c0 :: R) =
      some (['s', 'a', 'f', 'e'], some (c0 :: V), rest) := by
  show tryTagName ['e', 'f', 'a', 's'] (' ' :: c0 :: R) =
    some (['s', 'a', 'f', 'e'], some (c0 :: V), rest)
  rw [tryTagName_step (tryValue_space h0 h1 hve)]
  rfl

/-- The scanner keeps a character at which no match starts. -/
theorem scanRem_cons_none {fuel : ℕ} {c : Char} {rest : List Char}
    (h : tryMatchAt (c :: rest) = none) :
    scanRem (fuel + 1) (c :: rest) =
      ((scanRem fuel rest).1, c :: (scanRem fuel rest).2) := by
  rw [scanRem, h]

/-- The scanner emits a token at a successful match and resumes after it. -/
theorem scanRem_cons_some {fuel : ℕ} {c : Char} {rest name after : List Char}
    {v : Option (List Char)}
    (h : tryMatchAt (c :: rest) = some (name, v, after)) :
    scanRem (fuel + 1) (c :: rest) =
      (⟨name, v⟩ :: (scanRem fuel after).1, (scanRem fuel after).2) := by
  rw [scanRem, h]

theorem scanRem_nil (fuel : ℕ) : scanRem fuel [] = ([], []) := by
  cases fuel <;> rfl

/-- Scanning `x --safe <value...>`: the leading text is kept, the `safe` token
captures the value, and the scan resumes at the value's end. -/
theorem scanRem_safe {c0 : Char} {R V rest : List Char} {fuel : ℕ}
    (h0 : isWs c0 = false) (h1 : isMarkerChar c0 = false)
    (hve : valExt R = some (V, rest)) :
    scanRem (fuel + 3)
        ('x' :: ' ' :: '-' :: '-' :: 's' :: 'a' :: 'f' :: 'e' :: ' ' :: c0 :: R) =
      (⟨['s', 'a', 'f', 'e'], some (c0 :: V)⟩ :: (scanRem fuel rest).1,
       'x' :: ' ' :: (scanRem fuel rest).2) := by
  rw [show fuel + 3 = fuel + 2 + 1 from rfl,
    scanRem_cons_none (show tryMatchAt
      ('x' :: ' ' :: '-' :: '-' :: 's' :: 'a' :: 'f' :: 'e' :: ' ' :: c0 :: R) =
        none from rfl)]
  rw [show fuel + 2 = fuel + 1 + 1 from rfl,
    scanRem_cons_none (show tryMatchAt
      (' ' :: '-' :: '-' :: 's' :: 'a' :: 'f' :: 'e' :: ' ' :: c0 :: R) =
        none from rfl)]
  rw [scanRem_cons_some (tryMatchAt_safe h0 h1 hve)]

/-- A boolean-flag parameter rejects any stripped-and-lowered value outside
the six recognised tokens with the invalid-boolean `ValueError`. -/
theorem convertTagValue_bool_invalid {tagName v param : String} {bw bh : ℤ}
    (hp : param = "enable_safety_checker" ∨ param = "enhance_prompt")
    (hv : pyLower (pyStrip v) ∉
      (["true", "1", "yes", "false", "0", "no"] : List String)) :
    convertTagValue tagName (some v) param bw bh =
      .error (.valueError (boolWarnMsg v tagName)) := by
  have h1 : ¬ (pyLower (pyStrip v) = "true") := fun h => hv (by rw [h]; decide)
  have h2 : ¬ (pyLower (pyStrip v) = "1") := fun h => hv (by rw [h]; decide)
  have h3 : ¬ (pyLower (pyStrip v) = "yes") := fun h => hv (by rw [h]; decide)
  have h4 : ¬ (pyLower (pyStrip v) = "false") := fun h => hv (by rw [h]; decide)
  have h5 : ¬ (pyLower (pyStrip v) = "0") := fun h => hv (by rw [h]; decide)
  have h6 : ¬ (pyLower (pyStrip v) = "no") := fun h => hv (by rw [h]; decide)
  rcases hp with hp | hp <;>
    (subst hp
     unfold convertTagValue
     rw [if_pos (by decide)]
     dsimp only
     rw [if_neg (by simp [h1, h2, h3]), if_neg (by simp [h4, h5, h6])]
     rfl)

/-- A single token whose coercion raises a `ValueError` contributes exactly
its warning and no override. -/
theorem processMatches_single_warn (rules : List TagRule) (bw bh : ℤ)
    (m : RawMatch) {param msg : String}
    (hp : tagMapLookup rules (String.mk m.tag) = some param)
    (hc : convertTagValue (String.mk m.tag) (m.val.map String.mk) param bw bh =
      Except.error (.valueError msg)) :
    processMatches rules bw bh [m] [] [] = .ok ([], [msg]) := by
  unfold processMatches
  rw [hp]
  dsimp only
  rw [hc]
  dsimp only
  rw [List.nil_append]
  rfl

/-- C10: a boolean-flag tag (`--safe`, mapped to `enable_safety_checker`)
followed mid-prompt by ordinary marker-free text captures that text as its
value — up to the end of the prompt (first part), or up to the next
whitespace-plus-marker boundary when another tag follows (second part) — and
the captured text is removed from the cleaned prompt together with the tag;
whenever the captured value does not strip-and-lower to one of the six
recognised boolean tokens, either boolean-flag parameter yields exactly the
invalid-boolean warning and no override (third part, and the parse-level
result in the first part). -/
theorem c10_boolean_value_capture :
    (∀ (c0 : Char) (r : List Char) (bw bh : ℤ),
      isWs c0 = false →
      (∀ ch ∈ c0 :: r, isMarkerChar ch = false) →
      (c0 :: r).getLast? ≠ some '\n' →
      tokenize ('x' :: ' ' :: '-' :: '-' :: 's' :: 'a' :: 'f' :: 'e' :: ' ' ::
          c0 :: r) =
        ([⟨"safe".data, some (c0 :: r)⟩], ['x', ' ']) ∧
      (pyLower (pyStrip (String.mk (c0 :: r))) ∉
          (["true", "1", "yes", "false", "0", "no"] : List String) →
        parsePromptTags
            (String.mk ('x' :: ' ' :: '-' :: '-' :: 's' :: 'a' :: 'f' :: 'e' ::
              ' ' :: c0 :: r)) falaiFlux1Dev bw bh =
          .ok ("x", [("_warnings",
            .pyWarnList [boolWarnMsg (String.mk (c0 :: r)) "safe"])]))) ∧
    (∀ (c0 : Char) (r : List Char),
      isWs c0 = false →
      (∀ ch ∈ c0 :: r, isMarkerChar ch = false) →
      ((c0 :: r).getLast?.all (fun cl => !isWs cl)) = true →
      tokenize ('x' :: ' ' :: '-' :: '-' :: 's' :: 'a' :: 'f' :: 'e' :: ' ' ::
          ((c0 :: r) ++
            (' ' :: '-' :: '-' :: 's' :: 't' :: 'e' :: 'p' :: 's' :: ' ' ::
              ['5']))) =
        ([⟨"safe".data, some (c0 :: r)⟩, ⟨"steps".data, some ['5']⟩],
         ['x', ' ', ' '])) ∧
    (∀ (tagName v param : String) (bw bh : ℤ),
      (param = "enable_safety_checker" ∨ param = "enhance_prompt") →
      pyLower (pyStrip v) ∉
        (["true", "1", "yes", "false", "0", "no"] : List String) →
      convertTagValue tagName (some v) param bw bh =
        .error (.valueError (boolWarnMsg v tagName))) := by
  refine ⟨?_, ?_, ?_⟩
  · intro c0 r bw bh h0 hmk hlast
    have h1 : isMarkerChar c0 = false := hmk c0 (List.mem_cons_self c0 r)
    have hlr : r.getLast? ≠ some '\n' := by
      intro hg
      apply hlast
      rcases r with _ | ⟨d, r'⟩
      · simp at hg
      · rw [List.getLast?_cons_cons]
        exact hg
    have hve : valExt r = some (r, []) :=
      valExt_all r (fun c hc => hmk c (List.mem_cons_of_mem c0 hc)) hlr
    have htok : tokenize
        ('x' :: ' ' :: '-' :: '-' :: 's' :: 'a' :: 'f' :: 'e' :: ' ' :: c0 :: r) =
        ([⟨"safe".data, some (c0 :: r)⟩], ['x', ' ']) := by
      unfold tokenize
      rw [show ('x' :: ' ' :: '-' :: '-' :: 's' :: 'a' :: 'f' :: 'e' :: ' ' ::
          c0 :: r).length = (r.length + 7) + 3 from rfl]
      rw [scanRem_safe h0 h1 hve, scanRem_nil]
    refine ⟨htok, ?_⟩
    intro hnb
    unfold parsePromptTags
    rw [if_neg (show falaiFlux1Dev.parseTags ≠ [] from by decide)]
    dsimp only
    have htok2 : tokenize (String.mk ('x' :: ' ' :: '-' :: '-' :: 's' :: 'a' ::
        'f' :: 'e' :: ' ' :: c0 :: r)).data =
        ([⟨"safe".data, some (c0 :: r)⟩], ['x', ' ']) := htok
    rw [htok2]
    dsimp only
    rw [processMatches_single_warn falaiFlux1Dev.parseTags bw bh
      ⟨"safe".data, some (c0 :: r)⟩
      (show tagMapLookup falaiFlux1Dev.parseTags (String.mk "safe".data) =
        some "enable_safety_checker" from rfl)
      (convertTagValue_bool_invalid (Or.inl rfl) hnb)]
    rfl
  · intro c0 r h0 hmk hall
    have h1 : isMarkerChar c0 = false := hmk c0 (List.mem_cons_self c0 r)
    have hmk' : ∀ c ∈ r, isMarkerChar c = false :=
      fun c hc => hmk c (List.mem_cons_of_mem c0 hc)
    have hlastc : ∀ cl, (c0 :: r).getLast? = some cl → isWs cl = false := by
      intro cl hg
      rw [hg] at hall
      simpa using hall
    have hlast' : ∀ cl, r.getLast? = some cl → isWs cl = false := by
      intro cl hg
      apply hlastc cl
      rcases r with _ | ⟨d, r'⟩
      · simp at hg
      · rw [List.getLast?_cons_cons]
        exact hg
    have hve : valExt (r ++
        (' ' :: '-' :: '-' :: 's' :: 't' :: 'e' :: 'p' :: 's' :: ' ' :: ['5'])) =
        some (r, ' ' :: '-' :: '-' :: 's' :: 't' :: 'e' :: 'p' :: 's' :: ' ' ::
          ['5']) :=
      valExt_append_sep r _ hmk' hlast' rfl (by simp)
    rw [List.cons_append]
    unfold tokenize
    rw [show ('x' :: ' ' :: '-' :: '-' :: 's' :: 'a' :: 'f' :: 'e' :: ' ' ::
        c0 :: (r ++ (' ' :: '-' :: '-' :: 's' :: 't' :: 'e' :: 'p' :: 's' ::
          ' ' :: ['5']))).length =
        ((r ++ (' ' :: '-' :: '-' :: 's' :: 't' :: 'e' :: 'p' :: 's' :: ' ' ::
          ['5'])).length + 7) + 3 from rfl]
    rw [scanRem_safe h0 h1 hve]
    rw [show (r ++ (' ' :: '-' :: '-' :: 's' :: 't' :: 'e' :: 'p' :: 's' ::
        ' ' :: ['5'])).length + 7 =
        ((r ++ (' ' :: '-' :: '-' :: 's' :: 't' :: 'e' :: 'p' :: 's' :: ' ' ::
          ['5'])).length + 6) + 1 from rfl,
      scanRem_cons_none (show tryMatchAt
        (' ' :: '-' :: '-' :: 's' :: 't' :: 'e' :: 'p' :: 's' :: ' ' :: ['5']) =
        none from rfl)]
    rw [show (r ++ (' ' :: '-' :: '-' :: 's' :: 't' :: 'e' :: 'p' :: 's' ::
        ' ' :: ['5'])).length + 6 =
        ((r ++ (' ' :: '-' :: '-' :: 's' :: 't' :: 'e' :: 'p' :: 's' :: ' ' ::
          ['5'])).length + 5) + 1 from rfl,
      scanRem_cons_some (show tryMatchAt
        ('-' :: '-' :: 's' :: 't' :: 'e' :: 'p' :: 's' :: ' ' :: ['5']) =
        some (['s', 't', 'e', 'p', 's'], some ['5'], []) from rfl)]
    rw [scanRem_nil]
  · intro tagName v param bw bh hp hv
    exact convertTagValue_bool_invalid hp hv

/-- C10 witness: `"x --safe maybe later"` tokenizes to the single `safe` token
with value `"maybe later"`, parses to cleaned prompt `"x"` with only the
invalid-boolean warning; with a following `--steps 5` the value still stops at
the tag boundary; and a non-boolean value for `enable_safety_checker` is
rejected with that warning. -/
theorem c10_boolean_value_capture_witness :
    (tokenize ('x' :: ' ' :: '-' :: '-' :: 's' :: 'a' :: 'f' :: 'e' :: ' ' ::
        'm' :: "aybe later".data) =
      ([⟨"safe".data, some ('m' :: "aybe later".data)⟩], ['x', ' ']) ∧
      parsePromptTags
          (String.mk ('x' :: ' ' :: '-' :: '-' :: 's' :: 'a' :: 'f' :: 'e' ::
            ' ' :: 'm' :: "aybe later".data)) falaiFlux1Dev 800 1422 =
        .ok ("x", [("_warnings",
          .pyWarnList [boolWarnMsg (String.mk ('m' :: "aybe later".data))
            "safe"])])) ∧
    tokenize ('x' :: ' ' :: '-' :: '-' :: 's' :: 'a' :: 'f' :: 'e' :: ' ' ::
        (('m' :: "aybe later".data) ++
          (' ' :: '-' :: '-' :: 's' :: 't' :: 'e' :: 'p' :: 's' :: ' ' ::
            ['5']))) =
      ([⟨"safe".data, some ('m' :: "aybe later".data)⟩,
        ⟨"steps".data, some ['5']⟩], ['x', ' ', ' ']) ∧
    convertTagValue "safe" (some "maybe") "enable_safety_checker" 800 1422 =
      .error (.valueError (boolWarnMsg "maybe" "safe")) := by
  refine ⟨?_, ?_, ?_⟩
  · have h := c10_boolean_value_capture.1 'm' "aybe later".data 800 1422
      (by decide) (by decide) (by decide)
    exact ⟨h.1, h.2 (by decide)⟩
  · exact c10_boolean_value_capture.2.1 'm' "aybe later".data
      (by decide) (by decide) (by decide)
  · exact c10_boolean_value_capture.2.2 "safe" "maybe" "enable_safety_checker"
      800 1422 (Or.inl rfl) (by decide)

end FalPipe
